import Mathlib

/-!
# Verification of the Fanar-based writing copilot pipeline

A shallow embedding of the agent pipeline (query rewriting, tool-invocation
planning, tool execution, answer synthesis, citation substitution) of the
repository, together with proofs and refutations of its specified properties.

Strings are modelled as `List Char` (`Str`); Python string primitives
(`str.replace`, `str.strip`, `str.split`, `str.startswith`, `in`,
`"sep".join`, `re.findall` for the concrete tag patterns used) are given
executable definitions, and each agent function is translated clause by
clause from the Python source.  Recursions that consume a variable number
of characters per step use an explicit fuel argument (always instantiated
with the input length) so that every definition reduces inside the kernel;
the fuel-free equations are proved as lemmas.
-/

/-- Python strings are modelled as lists of characters. -/
abbrev Str := List Char

/-- Turn a Lean string literal into the `List Char` model. -/
def str (s : String) : Str := s.toList

/-- The whitespace characters stripped by Python's `str.strip()`
(ASCII subset, which is all the sources use). -/
def pySpace (c : Char) : Bool :=
  c = ' ' || c = '\t' || c = '\n' || c = '\r' || c = '\x0b' || c = '\x0c'

/-- Python `str.strip()`: remove leading and trailing whitespace. -/
def pyStrip (s : Str) : Str :=
  ((s.dropWhile pySpace).reverse.dropWhile pySpace).reverse

/-- Fuel-driven worker for `replaceAll`; the fuel bounds the number of scan
steps and is always called with at least the length of the string. -/
def replaceAllGo (p r : Str) : Nat → Str → Str
  | 0, s => s
  | fuel + 1, s =>
    match s with
    | [] => []
    | c :: t =>
      if p.isPrefixOf (c :: t) ∧ p ≠ [] then
        r ++ replaceAllGo p r fuel (List.drop p.length (c :: t))
      else
        c :: replaceAllGo p r fuel t

/-- Python `str.replace(old, new)` for a non-empty pattern `p`: scan left to
right, replacing each non-overlapping occurrence of `p` by `r`; the
replacement text is not rescanned.  (Python's behaviour for an empty
pattern is different, but every pattern in the sources is non-empty; for
`p = []` this definition leaves the string unchanged.) -/
def replaceAll (p r s : Str) : Str := replaceAllGo p r s.length s

theorem replaceAllGo_nil (p r : Str) (fuel : Nat) : replaceAllGo p r fuel [] = [] := by
  cases fuel <;> rfl

theorem replaceAllGo_congr (p r : Str) :
    ∀ (fuel fuel' : Nat) (s : Str), s.length ≤ fuel → s.length ≤ fuel' →
      replaceAllGo p r fuel s = replaceAllGo p r fuel' s := by
  intro fuel
  induction fuel with
  | zero =>
    intro fuel' s hs _
    have : s = [] := List.length_eq_zero.mp (Nat.le_zero.mp hs)
    subst this
    rw [replaceAllGo_nil, replaceAllGo_nil]
  | succ fuel ih =>
    intro fuel' s hs hs'
    cases s with
    | nil => rw [replaceAllGo_nil, replaceAllGo_nil]
    | cons c t =>
      cases fuel' with
      | zero => simp at hs'
      | succ fuel' =>
        simp only [replaceAllGo]
        by_cases h : p.isPrefixOf (c :: t) ∧ p ≠ []
        · have hp : 0 < p.length := List.length_pos.mpr h.2
          have hd : (List.drop p.length (c :: t)).length ≤ fuel := by
            simp only [List.length_drop, List.length_cons]
            simp only [List.length_cons] at hs
            omega
          have hd' : (List.drop p.length (c :: t)).length ≤ fuel' := by
            simp only [List.length_drop, List.length_cons]
            simp only [List.length_cons] at hs'
            omega
          simp only [if_pos h]
          rw [ih fuel' _ hd hd']
        · simp only [if_neg h]
          simp only [List.length_cons] at hs hs'
          rw [ih fuel' t (by omega) (by omega)]

theorem replaceAll_nil (p r : Str) : replaceAll p r [] = [] := rfl

theorem replaceAll_cons_pos {p : Str} (r : Str) {c : Char} {t : Str}
    (h1 : p.isPrefixOf (c :: t)) (h2 : p ≠ []) :
    replaceAll p r (c :: t) = r ++ replaceAll p r (List.drop p.length (c :: t)) := by
  have hp : 0 < p.length := List.length_pos.mpr h2
  show replaceAllGo p r (t.length + 1) (c :: t) = _
  simp only [replaceAllGo, if_pos (And.intro h1 h2)]
  unfold replaceAll
  congr 1
  apply replaceAllGo_congr
  · simp only [List.length_drop, List.length_cons]; omega
  · exact Nat.le_refl _

theorem replaceAll_cons_neg {p : Str} (r : Str) {c : Char} {t : Str}
    (h : ¬(p.isPrefixOf (c :: t) ∧ p ≠ [])) :
    replaceAll p r (c :: t) = c :: replaceAll p r t := by
  show replaceAllGo p r (t.length + 1) (c :: t) = _
  simp only [replaceAllGo, if_neg h]
  rfl

/-- Python `"sep".join(parts)`. -/
def pyJoin (sep : Str) : List Str → Str
  | [] => []
  | [x] => x
  | x :: xs => x ++ sep ++ pyJoin sep xs

/-- Python `list(set(xs))` as used in `islamic_rag` for `sources_used`:
the distinct elements of `xs`.  Python's set iteration order is
implementation-defined; it is modelled by `List.dedup`.  Every theorem
below that evaluates this definition does so on a list whose elements are
all equal, where every iteration order produces the same result. -/
def pySetList (xs : List Str) : List Str := xs.dedup

/-- Fuel-driven worker for `natDigits`. -/
def natDigitsGo : Nat → Nat → Str
  | 0, _ => []
  | fuel + 1, n =>
    if n < 10 then [Char.ofNat (48 + n)]
    else natDigitsGo fuel (n / 10) ++ [Char.ofNat (48 + n % 10)]

/-- Decimal digits of a natural number, as produced by Python's `str(i)`
inside an f-string (all ids in the sources are ≥ 1). -/
def natDigits (n : Nat) : Str := natDigitsGo (n + 1) n

theorem natDigitsGo_congr :
    ∀ (n fuel fuel' : Nat), n < fuel → n < fuel' →
      natDigitsGo fuel n = natDigitsGo fuel' n := by
  intro n
  induction n using Nat.strong_induction_on with
  | _ n ih =>
    intro fuel fuel' hf hf'
    cases fuel with
    | zero => omega
    | succ fuel =>
      cases fuel' with
      | zero => omega
      | succ fuel' =>
        simp only [natDigitsGo]
        by_cases h : n < 10
        · simp only [if_pos h]
        · simp only [if_neg h]
          rw [ih (n / 10) (by omega) fuel fuel' (by omega) (by omega)]

theorem natDigits_lt {n : Nat} (h : n < 10) : natDigits n = [Char.ofNat (48 + n)] := by
  unfold natDigits natDigitsGo
  rw [if_pos h]

theorem natDigits_ge {n : Nat} (h : 10 ≤ n) :
    natDigits n = natDigits (n / 10) ++ [Char.ofNat (48 + n % 10)] := by
  show natDigitsGo (n + 1) n = _
  simp only [natDigitsGo, if_neg (by omega : ¬ n < 10)]
  unfold natDigits
  congr 1
  exact natDigitsGo_congr (n / 10) n (n / 10 + 1) (by omega) (by omega)

/-- The opening citation tag `f"<RAG id={i}>"` emitted by the synthesis
agent and matched by the orchestrator. -/
def ragTag (i : Nat) : Str :=
  '<' :: 'R' :: 'A' :: 'G' :: ' ' :: 'i' :: 'd' :: '=' :: (natDigits i ++ ['>'])

/-- The closing tag `"</RAG>"`. -/
def ragClose : Str := ['<', '/', 'R', 'A', 'G', '>']

/-- The opening citation tag `f"<Internet id={i}>"`. -/
def netTag (i : Nat) : Str :=
  '<' :: 'I' :: 'n' :: 't' :: 'e' :: 'r' :: 'n' :: 'e' :: 't' :: ' ' :: 'i' :: 'd' :: '=' ::
    (natDigits i ++ ['>'])

/-- The closing tag `"</Internet>"`. -/
def netClose : Str := ['<', '/', 'I', 'n', 't', 'e', 'r', 'n', 'e', 't', '>']

/-- The per-kind reference map carried in `FinalAnswer.references`
(a Python `dict` with exactly the keys `"RAG"` and `"InternetSearch"`,
as built by `_prepare_synthesis_input_from_tool_results` and
`_create_fallback_answer`). -/
structure RefMap where
  RAG : List Str
  InternetSearch : List Str
deriving DecidableEq

/-- The `for i, ref in enumerate(references.get("RAG", []), 1)` loop of
`IslamicKnowledgeOrchestrator._replace_reference_tags`: per reference,
replace `<RAG id=i>` by `[ref]`, then strip every `</RAG>`. -/
def ragReplaceLoop (i : Nat) (refs : List Str) (text : Str) : Str :=
  match refs with
  | [] => text
  | ref :: rest =>
      ragReplaceLoop (i + 1) rest
        (replaceAll ragClose [] (replaceAll (ragTag i) ('[' :: ref ++ [']']) text))

/-- The `for i, ref in enumerate(references.get("InternetSearch", []), 1)`
loop of `_replace_reference_tags`. -/
def netReplaceLoop (i : Nat) (refs : List Str) (text : Str) : Str :=
  match refs with
  | [] => text
  | ref :: rest =>
      netReplaceLoop (i + 1) rest
        (replaceAll netClose [] (replaceAll (netTag i) ('[' :: ref ++ [']']) text))

/-- `IslamicKnowledgeOrchestrator._replace_reference_tags`: substitute the
RAG citation markers, then the Internet citation markers. -/
def replace_reference_tags (text : Str) (references : RefMap) : Str :=
  netReplaceLoop 1 references.InternetSearch (ragReplaceLoop 1 references.RAG text)

example : replaceAll (str "ab") (str "X") (str "cababd") = str "cXXd" := by decide
example : ragTag 12 = str "<RAG id=12>" := by decide
example : replace_reference_tags (str "a<RAG id=1>b</RAG>c") ⟨[str "s"], []⟩ =
    str "a[s]bc" := by decide

/-! ## Data model (`models/schemas.py`) -/

/-- `ReferenceMaterial`: a structured source citation from the RAG backend. -/
structure ReferenceMaterial where
  number : Option Str
  source : Str
  content : Str
  is_authentic_source : Bool
deriving DecidableEq

/-- `RAGResult`: result of an Islamic RAG search. -/
structure RAGResult where
  content : Str
  references : List ReferenceMaterial
  sources_used : List Str
  confidence_score : Rat
deriving DecidableEq

/-- One raw web-search result record (`Dict[str, Any]`); only the keys read
by the sources (`title`, `url`, `content`) are modelled, each possibly
absent since the code reads them with `dict.get` and a default. -/
structure WebRecord where
  title : Option Str
  url : Option Str
  content : Option Str
deriving DecidableEq

/-- `WebSearchResult`: result of a Tavily web search. -/
structure WebSearchResult where
  content : Str
  results : List WebRecord
  search_query : Str
deriving DecidableEq

/-- Python `dict.get(key, default)` on the modelled optional fields. -/
def pyGet (o : Option Str) (default : Str) : Str := o.getD default

/-- The two tool names used in the invocation dictionaries
(`'RAG'` and `'InternetSearch'`). -/
inductive ToolKind where
  | RAG
  | InternetSearch
deriving DecidableEq

/-- The `result` entry of a tool-result dictionary; the `isinstance` checks
in the synthesis agent inspect which variant it is. -/
inductive ToolResultValue where
  | rag (r : RAGResult)
  | web (w : WebSearchResult)
deriving DecidableEq

/-- One element of the `tool_results` list built by
`ToolUsageAgent.process_query`: `{'tool': …, 'query': …, 'result': …}`. -/
structure ToolRecord where
  tool : ToolKind
  query : Str
  result : ToolResultValue
deriving DecidableEq

/-- `FinalAnswer`: the synthesized answer. -/
structure FinalAnswer where
  answer : Str
  confidence : Rat
  methodology : Str
  references : RefMap
deriving DecidableEq

/-! ## Knowledge retrieval (`services/fanar_service.py`) -/

/-- Python `str.lower()` (ASCII case folding suffices for the sources'
fixed keyword lists). -/
def pyLower (s : Str) : Str := s.map Char.toLower

/-- Python's substring test `p in s`. -/
def isSubstr (p : Str) : Str → Bool
  | [] => p.isPrefixOf []
  | c :: t => p.isPrefixOf (c :: t) || isSubstr p t

theorem isSubstr_iff {p : Str} : ∀ {s : Str}, isSubstr p s = true ↔ p <:+: s := by
  intro s
  induction s with
  | nil =>
    simp only [isSubstr, List.isPrefixOf_iff_prefix, List.prefix_nil, List.infix_nil]
  | cons c t ih =>
    simp only [isSubstr, Bool.or_eq_true, List.isPrefixOf_iff_prefix, ih,
      List.infix_cons_iff]

/-- `FanarService._validate_islamic_source`: check the source name against
the fixed allow-list of authentic origin substrings (case-insensitive). -/
def validate_islamic_source (source : Str) : Bool :=
  [str "islamqa", str "islamweb", str "sunnah", str "quran", str "tafsir",
    str "dorar", str "shamela", str "islamonline", str "dar-alifta",
    str "al-islam", str "islamicity", str "muslim"].any
    (fun auth_source => isSubstr auth_source (pyLower source))

/-- One entry of the raw `references` array of the RAG backend response;
the code reads `number`, `source` and `content` with `dict.get`. -/
structure RawRef where
  number : Option Str
  source : Option Str
  content : Option Str
deriving DecidableEq

/-- Python `str(x)` applied to `ref.get("number")`: `str(None) == "None"`,
and a string is returned unchanged. -/
def pyStrOfOpt (o : Option Str) : Str :=
  match o with
  | none => str "None"
  | some s => s

/-- `FanarService._parse_enhanced_references`. -/
def parse_enhanced_references (references : List RawRef) : List ReferenceMaterial :=
  references.map fun ref =>
    let source := pyGet ref.source (str "Unknown source")
    { number := some (pyStrOfOpt ref.number)
      source := source
      content := pyGet ref.content []
      is_authentic_source := validate_islamic_source source }

/-- The pure tail of `FanarService.islamic_rag`: given the `content` and
`references` fields extracted from the backend response, build the
`RAGResult`.  `sources_used = list(set([ref.source for ref in references]))`. -/
def islamic_rag_result (content : Str) (references_data : List RawRef) : RAGResult :=
  let references := parse_enhanced_references references_data
  { content := content
    references := references
    sources_used := pySetList (references.map (·.source))
    confidence_score := 0 }

/-! ## Synthesis agent (`agents/synthesis_agent.py`) -/

/-- Python `enumerate(xs, i)`. -/
def enumFrom (i : Nat) : List α → List (Nat × α)
  | [] => []
  | x :: xs => (i, x) :: enumFrom (i + 1) xs

/-- The reference lines `f"<RAG id={i}>{ref.source}: {ref.content[:100]}...</RAG>"`
appended for one `KnowledgeRetrieval` record (note: `enumerate(result.references, 1)`
restarts `i` at 1 for every record). -/
def ragRefParts (references : List ReferenceMaterial) : List Str :=
  (enumFrom 1 references).map fun p =>
    ragTag p.1 ++ p.2.source ++ str ": " ++ p.2.content.take 100 ++ str "..." ++ ragClose

/-- The result lines `f"<Internet id={i}>{title} ({url}): {snippet}...</Internet>"`
for one `WebSearch` record (again `enumerate(result.results, 1)` per record). -/
def netResultParts (results : List WebRecord) : List Str :=
  (enumFrom 1 results).map fun p =>
    netTag p.1 ++ pyGet p.2.title (str "Unknown") ++ str " (" ++ pyGet p.2.url [] ++
      str "): " ++ (pyGet p.2.content []).take 100 ++ str "..." ++ netClose

/-- The synthesis-part strings and per-kind origin labels contributed by a
single tool-result record in
`SynthesisAgent._prepare_synthesis_input_from_tool_results`
(parts, RAG origins, InternetSearch origins). -/
def recordContribution (record : ToolRecord) : List Str × List Str × List Str :=
  match record.tool, record.result with
  | .RAG, .rag result =>
      ([str "\n## Islamic Sources Information\n**Query Used:** " ++ record.query ++
          str "\n**Content:** " ++ result.content ++ str "\n"] ++
        (if result.references ≠ [] then
          [str "**Detailed References and Sources:**"] ++ ragRefParts result.references ++ [[]]
        else []),
        result.sources_used, [])
  | .InternetSearch, .web result =>
      ([str "\n## Contemporary (Internet Search) Information\n**Search Query:** " ++
          record.query ++ str "\n**Direct Search Answer:** " ++ result.content ++ str "\n"] ++
        (if result.results ≠ [] then
          [str "**Web Search Results:**"] ++ netResultParts result.results ++ [[]]
        else []),
        [], result.results.map (fun w => pyGet w.url []))
  | _, _ => ([], [], [])

/-- The loop of `_prepare_synthesis_input_from_tool_results`, accumulating
synthesis parts and the per-kind origin-label lists in record order. -/
def prepareGo : List ToolRecord → List Str × List Str × List Str
  | [] => ([], [], [])
  | record :: rest =>
      let head := recordContribution record
      let tail := prepareGo rest
      (head.1 ++ tail.1, head.2.1 ++ tail.2.1, head.2.2 ++ tail.2.2)

/-- `SynthesisAgent._prepare_synthesis_input_from_tool_results`: returns
`("\n".join(synthesis_parts), sources)`. -/
def prepare_synthesis_input_from_tool_results (_query : Str) (tool_results : List ToolRecord) :
    Str × RefMap :=
  let go := prepareGo tool_results
  (pyJoin (str "\n") go.1, ⟨go.2.1, go.2.2⟩)

/-- `SynthesisAgent._create_fallback_answer`. -/
def create_fallback_answer (_query error : Str) : FinalAnswer :=
  { answer := str "I apologize, but I encountered an error while processing your query: " ++ error
    confidence := 0
    methodology := str "Error fallback"
    references := ⟨[], []⟩ }

/-- `SynthesisAgent.synthesize_answer`: build the synthesis input, consult
the Chat Backend (modelled as one `Except` outcome for the single chat
call), and either wrap the response or fall back on error. -/
def synthesize_answer (original_query : Str) (tool_results : List ToolRecord)
    (backend : Except Str Str) : FinalAnswer :=
  let prep := prepare_synthesis_input_from_tool_results original_query tool_results
  match backend with
  | .ok response =>
      { answer := response, confidence := 0, methodology := [], references := prep.2 }
  | .error e => create_fallback_answer original_query e

/-! ## Tool usage agent (`agents/tool_usage_agent.py`) -/

/-- Index of the first occurrence of `pat` in `s` (the position at which a
lazy regex capture stops growing), if any. -/
def firstMatchIdx (pat : Str) : Str → Option Nat
  | [] => if pat.isPrefixOf [] then some 0 else none
  | c :: t => if pat.isPrefixOf (c :: t) then some 0 else (firstMatchIdx pat t).map (· + 1)

/-- Fuel-driven worker for `findAllCaptures`. -/
def findAllCapturesGo (openT closeT : Str) : Nat → Str → List Str
  | 0, _ => []
  | fuel + 1, s =>
    match s with
    | [] => []
    | c :: t =>
      if openT.isPrefixOf (c :: t) ∧ openT ≠ [] then
        match firstMatchIdx closeT (List.drop openT.length (c :: t)) with
        | some i =>
            List.take i (List.drop openT.length (c :: t)) ::
              findAllCapturesGo openT closeT fuel
                (List.drop (openT.length + i + closeT.length) (c :: t))
        | none => findAllCapturesGo openT closeT fuel t
      else findAllCapturesGo openT closeT fuel t

/-- `re.findall(openT + "(.*?)" + closeT, s, re.DOTALL)` for the literal
delimiter pairs used by `_parse_tool_invocations`: scan left to right; at
the first position where `openT` matches, capture lazily up to the first
following occurrence of `closeT`, then resume after it; if no `closeT`
follows, that position does not match and the scan advances one character. -/
def findAllCaptures (openT closeT s : Str) : List Str :=
  findAllCapturesGo openT closeT s.length s

theorem findAllCapturesGo_nil (openT closeT : Str) (fuel : Nat) :
    findAllCapturesGo openT closeT fuel [] = [] := by
  cases fuel <;> rfl

theorem findAllCapturesGo_congr (openT closeT : Str) :
    ∀ (fuel fuel' : Nat) (s : Str), s.length ≤ fuel → s.length ≤ fuel' →
      findAllCapturesGo openT closeT fuel s = findAllCapturesGo openT closeT fuel' s := by
  intro fuel
  induction fuel with
  | zero =>
    intro fuel' s hs _
    have : s = [] := List.length_eq_zero.mp (Nat.le_zero.mp hs)
    subst this
    rw [findAllCapturesGo_nil, findAllCapturesGo_nil]
  | succ fuel ih =>
    intro fuel' s hs hs'
    cases s with
    | nil => rw [findAllCapturesGo_nil, findAllCapturesGo_nil]
    | cons c t =>
      cases fuel' with
      | zero => simp at hs'
      | succ fuel' =>
        simp only [findAllCapturesGo]
        simp only [List.length_cons] at hs hs'
        by_cases h : openT.isPrefixOf (c :: t) ∧ openT ≠ []
        · have hop : 0 < openT.length := List.length_pos.mpr h.2
          simp only [if_pos h]
          cases hfi : firstMatchIdx closeT (List.drop openT.length (c :: t)) with
          | none =>
            dsimp only
            rw [ih fuel' t (by omega) (by omega)]
          | some i =>
            have hd : (List.drop (openT.length + i + closeT.length) (c :: t)).length ≤ fuel := by
              simp only [List.length_drop, List.length_cons]
              omega
            have hd' : (List.drop (openT.length + i + closeT.length) (c :: t)).length ≤ fuel' := by
              simp only [List.length_drop, List.length_cons]
              omega
            dsimp only
            rw [ih fuel' _ hd hd']
        · simp only [if_neg h]
          rw [ih fuel' t (by omega) (by omega)]

theorem findAllCaptures_nil (openT closeT : Str) : findAllCaptures openT closeT [] = [] := rfl

theorem findAllCaptures_cons_pos {openT : Str} (closeT : Str) {c : Char} {t : Str} {i : Nat}
    (h1 : openT.isPrefixOf (c :: t)) (h2 : openT ≠ [])
    (hfi : firstMatchIdx closeT (List.drop openT.length (c :: t)) = some i) :
    findAllCaptures openT closeT (c :: t) =
      List.take i (List.drop openT.length (c :: t)) ::
        findAllCaptures openT closeT (List.drop (openT.length + i + closeT.length) (c :: t)) := by
  have hop : 0 < openT.length := List.length_pos.mpr h2
  show findAllCapturesGo openT closeT (t.length + 1) (c :: t) = _
  simp only [findAllCapturesGo, if_pos (And.intro h1 h2), hfi]
  unfold findAllCaptures
  congr 1
  apply findAllCapturesGo_congr
  · simp only [List.length_drop, List.length_cons]; omega
  · exact Nat.le_refl _

theorem findAllCaptures_cons_noclose {openT : Str} (closeT : Str) {c : Char} {t : Str}
    (h1 : openT.isPrefixOf (c :: t)) (h2 : openT ≠ [])
    (hfi : firstMatchIdx closeT (List.drop openT.length (c :: t)) = none) :
    findAllCaptures openT closeT (c :: t) = findAllCaptures openT closeT t := by
  show findAllCapturesGo openT closeT (t.length + 1) (c :: t) = _
  simp only [findAllCapturesGo, if_pos (And.intro h1 h2), hfi]
  rfl

theorem findAllCaptures_cons_neg {openT : Str} (closeT : Str) {c : Char} {t : Str}
    (h : ¬(openT.isPrefixOf (c :: t) ∧ openT ≠ [])) :
    findAllCaptures openT closeT (c :: t) = findAllCaptures openT closeT t := by
  show findAllCapturesGo openT closeT (t.length + 1) (c :: t) = _
  simp only [findAllCapturesGo, if_neg h]
  rfl

/-- One planned tool invocation (`{'tool': …, 'query': …}`). -/
structure ToolInvocation where
  tool : ToolKind
  query : Str
deriving DecidableEq

/-- `ToolUsageAgent._parse_tool_invocations`: all RAG captures in document
order, then all InternetSearch captures in document order, each
whitespace-trimmed. -/
def parse_tool_invocations (response : Str) : List ToolInvocation :=
  (findAllCaptures (str "<RAG><query>") (str "</query></RAG>") response).map
      (fun m => ⟨.RAG, pyStrip m⟩) ++
    (findAllCaptures (str "<InternetSearch><search_query>")
        (str "</search_query></InternetSearch>") response).map
      (fun m => ⟨.InternetSearch, pyStrip m⟩)

/-- `ToolUsageAgent._get_tool_invocations`: the Chat Backend call is
modelled as one `Except` outcome; any backend error is caught and yields
an empty invocation list. -/
def get_tool_invocations (backendResponse : Except Str Str) : List ToolInvocation :=
  match backendResponse with
  | .ok response => parse_tool_invocations response
  | .error _ => []

/-- The result dictionary of `ToolUsageAgent.process_query` (success case)
and `_create_error_result` (failure case); `error_query` models the extra
`'query'` key present only in error results. -/
structure AgentResult where
  success : Bool
  error : Option Str
  error_query : Option Str
  tool_invocations : List ToolInvocation
  tool_results : List ToolRecord
  rag_result : Option RAGResult
  web_result : Option WebSearchResult

/-- `ToolUsageAgent._create_error_result`. -/
def create_error_result (error query : Str) : AgentResult :=
  ⟨false, some error, some query, [], [], none, none⟩

/-- The tool-execution loop of `ToolUsageAgent.process_query`: dispatch each
invocation in order; `rag_result`/`web_result` are overwritten by every
execution of the matching kind (even a failed one, which returns `none`),
and a record is appended only when the execution returned a result. -/
def toolExecLoop (ragExec : Str → Option RAGResult) (webExec : Str → Option WebSearchResult) :
    List ToolInvocation → Option RAGResult → Option WebSearchResult → List ToolRecord →
      Option RAGResult × Option WebSearchResult × List ToolRecord
  | [], ragR, webR, acc => (ragR, webR, acc)
  | inv :: rest, ragR, webR, acc =>
    match inv.tool with
    | .RAG =>
        let r := ragExec inv.query
        toolExecLoop ragExec webExec rest r webR
          (acc ++ (match r with
            | some rr => [⟨.RAG, inv.query, .rag rr⟩]
            | none => []))
    | .InternetSearch =>
        let w := webExec inv.query
        toolExecLoop ragExec webExec rest ragR w
          (acc ++ (match w with
            | some ww => [⟨.InternetSearch, inv.query, .web ww⟩]
            | none => []))

/-- `ToolUsageAgent.process_query`: plan invocations, treat an empty plan
as a failure, otherwise execute every invocation in order.  The executors
(`_execute_rag`, `_execute_web_search`) catch their own exceptions and
return `none` on any failure or unavailability, so they are modelled as
`Option`-valued oracles. -/
def tool_process_query (backendResponse : Except Str Str)
    (ragExec : Str → Option RAGResult) (webExec : Str → Option WebSearchResult)
    (query : Str) : AgentResult :=
  let tool_invocations := get_tool_invocations backendResponse
  if tool_invocations = [] then
    create_error_result (str "No tool invocations generated") query
  else
    let e := toolExecLoop ragExec webExec tool_invocations none none []
    ⟨true, none, none, tool_invocations, e.2.2, e.1, e.2.1⟩

/-! ## Query rewriter (`agents/query_rewriter.py`) -/

/-- `RewrittenQuery` (`models/schemas.py`). -/
structure RewrittenQuery where
  original_query : Str
  rewritten_query : Str
  improvements : List Str
deriving DecidableEq

/-- Python `s.split('\n')`. -/
def splitOnNl : Str → List Str
  | [] => [[]]
  | c :: t =>
    if c = '\n' then [] :: splitOnNl t
    else
      match splitOnNl t with
      | [] => [[c]]
      | h :: r => (c :: h) :: r

/-- The part of a line after its first `':'` — Python
`line.split(":", 1)[1]`, used only under the guard `":" in line`. -/
def afterFirstColon : Str → Str
  | [] => []
  | c :: t => if c = ':' then t else afterFirstColon t

/-- The `current_section` state of `QueryRewriterAgent._parse_response`. -/
inductive RwSection where
  | noSection
  | querySec
  | improvementsSec
deriving DecidableEq

/-- The mutable state of the `_parse_response` line loop. -/
structure RwState where
  rewritten : Str
  improvements : List Str
  cur_section : RwSection
deriving DecidableEq

/-- One iteration of the `_parse_response` line loop (`line` is the
stripped line, `query_part` the stripped text after the first colon, both
written out in full). -/
def rwLine (st : RwState) (rawLine : Str) : RwState :=
  if pyStrip rawLine = [] then st
  else if (str "1. Rewritten Query:").isPrefixOf (pyStrip rawLine) ∨
      isSubstr (str "Rewritten Query:") (pyStrip rawLine) then
    if ':' ∈ pyStrip rawLine then
      if pyStrip (afterFirstColon (pyStrip rawLine)) ≠ [] ∧
          ¬ (str "[").isPrefixOf (pyStrip (afterFirstColon (pyStrip rawLine))) then
        { st with cur_section := .querySec,
                  rewritten := pyStrip (afterFirstColon (pyStrip rawLine)) }
      else { st with cur_section := .querySec }
    else { st with cur_section := .querySec }
  else if (str "2. Improvements Made:").isPrefixOf (pyStrip rawLine) ∨
      isSubstr (str "Improvements Made:") (pyStrip rawLine) then
    { st with cur_section := .improvementsSec }
  else if st.cur_section = .querySec then
    if ¬ (str "[").isPrefixOf (pyStrip rawLine) ∧ ¬ (str "2.").isPrefixOf (pyStrip rawLine) then
      { st with rewritten := pyStrip rawLine }
    else st
  else if st.cur_section = .improvementsSec then
    if (str "-").isPrefixOf (pyStrip rawLine) ∨ (str "â€¢").isPrefixOf (pyStrip rawLine) ∨
        (str "*").isPrefixOf (pyStrip rawLine) then
      { st with improvements := st.improvements ++ [pyStrip (List.drop 1 (pyStrip rawLine))] }
    else if ¬ (str "[").isPrefixOf (pyStrip rawLine) then
      { st with improvements := st.improvements ++ [pyStrip rawLine] }
    else st
  else st

/-- The line scan of `QueryRewriterAgent._parse_response`, starting from the
fallback state `rewritten = original_query`. -/
def parse_response_scan (response original_query : Str) : RwState :=
  (splitOnNl (pyStrip response)).foldl rwLine ⟨original_query, [], .noSection⟩

/-- `QueryRewriterAgent._parse_response`: run the line scan, then clean up
the rewritten query (strip; replace a bracketed placeholder by the original
query) and default an empty improvements list. -/
def parse_response (response original_query : Str) : Str × List Str :=
  let st := parse_response_scan response original_query
  let cleaned := pyStrip st.rewritten
  ((if (str "[").isPrefixOf cleaned ∧ (str "]").isSuffixOf cleaned then original_query
    else cleaned),
   if st.improvements = [] then [str "Query processed for Islamic context"]
   else st.improvements)

/-- `QueryRewriterAgent._simple_enhance_query`. -/
def simple_enhance_query (query : Str) : Str :=
  let islamic_terms := [str "islam", str "islamic", str "quran", str "hadith",
    str "prophet", str "allah", str "muhammad"]
  let query_lower := pyLower query
  if islamic_terms.any (fun term => isSubstr term query_lower) then query
  else query ++ str " in Islamic perspective according to Quran and Sunnah"

/-- `QueryRewriterAgent.rewrite_query`: the Chat Backend call is modelled as
one `Except` outcome; on any backend failure the fallback enhancement is
returned. -/
def rewrite_query (backendResponse : Except Str Str) (original_query : Str) : RewrittenQuery :=
  match backendResponse with
  | .ok response =>
      let parsed := parse_response response original_query
      ⟨original_query, parsed.1, parsed.2⟩
  | .error _ =>
      ⟨original_query, simple_enhance_query original_query,
        [str "Added basic Islamic context (fallback)"]⟩

/-! ## Orchestrator (`orchestrator.py`) -/

/-- `SystemResponse` (the fields with pipeline content; `intermediate_reasoning`
is always `None` and elapsed time is a wall-clock difference). -/
structure SystemResponse where
  final_answer : FinalAnswer
  raw_rag_output : Option RAGResult
  raw_web_output : Option WebSearchResult
  rewritten_query : Option RewrittenQuery
  processing_time : Rat

/-- `IslamicKnowledgeOrchestrator.process_query`: rewrite, plan+execute,
synthesize (or fall back when the agent signalled failure), substitute the
citation markers, and record the elapsed wall-clock time.  The three Chat
Backend calls (rewriter, planner, synthesizer) are modelled as three
`Except` outcomes, the two executors as `Option`-valued oracles, and the
two `time.time()` samples as the rationals `t0`/`t1`. -/
def orchestrator_process_query (rwResponse tuResponse synResponse : Except Str Str)
    (ragExec : Str → Option RAGResult) (webExec : Str → Option WebSearchResult)
    (request_query : Str) (t0 t1 : Rat) : SystemResponse :=
  let rewritten_query_result := rewrite_query rwResponse request_query
  let agent_result :=
    tool_process_query tuResponse ragExec webExec rewritten_query_result.rewritten_query
  let final_answer :=
    if agent_result.success then
      synthesize_answer request_query agent_result.tool_results synResponse
    else
      create_fallback_answer request_query ((agent_result.error).getD (str "Unknown error"))
  let final_answer2 :=
    { final_answer with
        answer := replace_reference_tags final_answer.answer final_answer.references }
  { final_answer := final_answer2
    raw_rag_output := agent_result.rag_result
    raw_web_output := agent_result.web_result
    rewritten_query := some rewritten_query_result
    processing_time := t1 - t0 }

example :
    parse_tool_invocations (str "x<RAG><query> a </query></RAG>y<InternetSearch><search_query>b</search_query></InternetSearch>") =
      [⟨.RAG, str "a"⟩, ⟨.InternetSearch, str "b"⟩] := by decide
example : parse_response (str "1. Rewritten Query: better\n2. Improvements Made:\n- x") (str "q") =
    (str "better", [str "x"]) := by decide

/-! ## Claim C10: the query rewriter is total and shape-preserving -/

/-- C10: for every input string and every Chat Backend behaviour (success
with arbitrary text, or a raised exception, modelled by the `Except`
outcome), the query rewriter returns a `RewrittenQuery` whose
`original_query` equals the input exactly and whose `improvements` list is
non-empty.  (That it never raises is the totality of `rewrite_query`.) -/
theorem rewrite_query_always_wellformed (backendResponse : Except Str Str)
    (original_query : Str) :
    (rewrite_query backendResponse original_query).original_query = original_query ∧
      (rewrite_query backendResponse original_query).improvements ≠ [] := by
  cases backendResponse with
  | ok response =>
    refine ⟨rfl, ?_⟩
    show (parse_response response original_query).2 ≠ []
    unfold parse_response
    by_cases h : (parse_response_scan response original_query).improvements = []
    · simp [h]
    · simp [h]
  | error e => exact ⟨rfl, by simp [rewrite_query]⟩

/-! ## Claim C8: an always-raising Chat Backend yields the error fallback -/

/-- C8: if the Chat Backend raises on every call (all three chat calls are
error outcomes), the pipeline still returns a well-formed `SystemResponse`
whose `FinalAnswer` has confidence 0, methodology `"Error fallback"` and
empty reference lists for both kinds, and whose recorded processing time is
positive; no exception propagates (totality of
`orchestrator_process_query`). -/
theorem pipeline_backend_failure_fallback (e1 e2 e3 : Str)
    (ragExec : Str → Option RAGResult) (webExec : Str → Option WebSearchResult)
    (request_query : Str) (t0 t1 : Rat) (h : t0 < t1) :
    (orchestrator_process_query (.error e1) (.error e2) (.error e3) ragExec webExec
        request_query t0 t1).final_answer.confidence = 0 ∧
      (orchestrator_process_query (.error e1) (.error e2) (.error e3) ragExec webExec
        request_query t0 t1).final_answer.methodology = str "Error fallback" ∧
      (orchestrator_process_query (.error e1) (.error e2) (.error e3) ragExec webExec
        request_query t0 t1).final_answer.references = ⟨[], []⟩ ∧
      0 < (orchestrator_process_query (.error e1) (.error e2) (.error e3) ragExec webExec
        request_query t0 t1).processing_time := by
  refine ⟨rfl, rfl, rfl, ?_⟩
  show 0 < t1 - t0
  exact sub_pos.mpr h

/-- Witness for C8 at concrete inputs. -/
theorem pipeline_backend_failure_fallback_witness :
    (orchestrator_process_query (.error (str "boom")) (.error (str "boom"))
        (.error (str "boom")) (fun _ => none) (fun _ => none)
        (str "What breaks a fast?") 0 1).final_answer.confidence = 0 ∧
      (orchestrator_process_query (.error (str "boom")) (.error (str "boom"))
        (.error (str "boom")) (fun _ => none) (fun _ => none)
        (str "What breaks a fast?") 0 1).final_answer.methodology = str "Error fallback" ∧
      (orchestrator_process_query (.error (str "boom")) (.error (str "boom"))
        (.error (str "boom")) (fun _ => none) (fun _ => none)
        (str "What breaks a fast?") 0 1).final_answer.references = ⟨[], []⟩ ∧
      0 < (orchestrator_process_query (.error (str "boom")) (.error (str "boom"))
        (.error (str "boom")) (fun _ => none) (fun _ => none)
        (str "What breaks a fast?") 0 1).processing_time :=
  pipeline_backend_failure_fallback (str "boom") (str "boom") (str "boom")
    (fun _ => none) (fun _ => none) (str "What breaks a fast?") 0 1 (by decide)

/-! ## Claim C1: origin-label lists vs. emitted citation tags -/

set_option maxRecDepth 4000 in
/-- C1 (refuted, code bug): for a single `KnowledgeRetrieval` record whose
two references share one source label, the synthesis prompt emits the two
numbered tags `<RAG id=1>` and `<RAG id=2>`, but the accumulated RAG
origin-label list is the deduplicated `sources_used` list
(`list(set(...))` in `islamic_rag`) and has a single entry, so citation
substitution resolves only `<RAG id=1>` and leaves `<RAG id=2>` in the
final answer: the origin list does not list the display value of each
numbered tag, and substitution drifts from the prompt numbering. -/
theorem synthesis_numbering_vs_origin_list_drift :
    isSubstr (ragTag 1)
        (prepare_synthesis_input_from_tool_results (str "Q")
          [⟨.RAG, str "q", .rag (islamic_rag_result (str "C")
            [⟨some (str "1"), some (str "islamqa"), some (str "a")⟩,
             ⟨some (str "2"), some (str "islamqa"), some (str "b")⟩])⟩]).1 = true ∧
      isSubstr (ragTag 2)
        (prepare_synthesis_input_from_tool_results (str "Q")
          [⟨.RAG, str "q", .rag (islamic_rag_result (str "C")
            [⟨some (str "1"), some (str "islamqa"), some (str "a")⟩,
             ⟨some (str "2"), some (str "islamqa"), some (str "b")⟩])⟩]).1 = true ∧
      (prepare_synthesis_input_from_tool_results (str "Q")
          [⟨.RAG, str "q", .rag (islamic_rag_result (str "C")
            [⟨some (str "1"), some (str "islamqa"), some (str "a")⟩,
             ⟨some (str "2"), some (str "islamqa"), some (str "b")⟩])⟩]).2.RAG
        = [str "islamqa"] ∧
      replace_reference_tags (str "x<RAG id=1>y<RAG id=2>z")
          (prepare_synthesis_input_from_tool_results (str "Q")
            [⟨.RAG, str "q", .rag (islamic_rag_result (str "C")
              [⟨some (str "1"), some (str "islamqa"), some (str "a")⟩,
               ⟨some (str "2"), some (str "islamqa"), some (str "b")⟩])⟩]).2
        = str "x[islamqa]y<RAG id=2>z" := by
  refine ⟨by decide, by decide, by decide, by decide⟩

/-! ## Claim C2: reference-id numbering across records -/

set_option maxRecDepth 4000 in
/-- C2 (refuted, code bug): for a batch of two `KnowledgeRetrieval` records
with one reference each, the `<RAG id=N>` ids assigned in the synthesis
prompt are `1, 1` — `enumerate(result.references, 1)` restarts at 1 for
every record — not the gapless running sequence `1, 2` required by the
numbering invariant. -/
theorem rag_ids_reset_per_record :
    findAllCaptures (str "<RAG id=") (str ">")
        (prepare_synthesis_input_from_tool_results (str "Q")
          [⟨.RAG, str "q1", .rag ⟨str "C1", [⟨some (str "1"), str "s1", str "c1", true⟩],
              [str "s1"], 0⟩⟩,
           ⟨.RAG, str "q2", .rag ⟨str "C2", [⟨some (str "1"), str "s2", str "c2", true⟩],
              [str "s2"], 0⟩⟩]).1
      = [str "1", str "1"] := by decide

/-! ## Structural lemmas about `replaceAll` and the citation tags -/

theorem replaceAll_append_no_match {p : Str} (r : Str) :
    ∀ (a : Str) {b : Str}, (∀ j < a.length, ¬ p <+: List.drop j (a ++ b)) →
      replaceAll p r (a ++ b) = a ++ replaceAll p r b := by
  intro a
  induction a with
  | nil => intro b _; rfl
  | cons c a' ih =>
    intro b h
    have h0 : ¬ p <+: (c :: (a' ++ b)) := by
      have := h 0 (by simp)
      simpa using this
    have hcond : ¬ (p.isPrefixOf (c :: (a' ++ b)) ∧ p ≠ []) := by
      intro hc
      exact h0 (List.isPrefixOf_iff_prefix.mp hc.1)
    show replaceAll p r (c :: (a' ++ b)) = _
    rw [replaceAll_cons_neg r hcond]
    rw [ih (fun j hj => by
      have := h (j + 1) (by simpa using Nat.succ_lt_succ hj)
      simpa [List.drop_succ_cons] using this)]
    rfl

theorem replaceAll_append_head {p : Str} (r : Str) (b : Str) (hp : p ≠ []) :
    replaceAll p r (p ++ b) = r ++ replaceAll p r b := by
  cases p with
  | nil => exact absurd rfl hp
  | cons c pt =>
    show replaceAll (c :: pt) r (c :: (pt ++ b)) = _
    rw [replaceAll_cons_pos r
      (List.isPrefixOf_iff_prefix.mpr (by exact List.prefix_append (c :: pt) b)) hp]
    congr 1
    show replaceAll (c :: pt) r (List.drop (c :: pt).length ((c :: pt) ++ b)) = _
    rw [List.drop_left]

theorem infix_of_prefix_drop {p s : Str} {j : Nat} (h : p <+: List.drop j s) : p <:+: s :=
  List.infix_iff_prefix_suffix.mpr ⟨List.drop j s, h, List.drop_suffix j s⟩

theorem replaceAll_no_occurrence {p : Str} (r : Str) {s : Str} (h : ¬ p <:+: s) :
    replaceAll p r s = s := by
  have := replaceAll_append_no_match (p := p) r s (b := [])
    (fun j _ hpre => h (infix_of_prefix_drop (by simpa using hpre)))
  simpa [replaceAll_nil] using this

/-- Every character of `natDigits n` is a decimal digit. -/
theorem natDigits_digit : ∀ (n : Nat), ∀ c ∈ natDigits n, 48 ≤ c.toNat ∧ c.toNat ≤ 57 := by
  intro n
  induction n using Nat.strong_induction_on with
  | _ n ih =>
    intro c hc
    by_cases h : n < 10
    · rw [natDigits_lt h] at hc
      simp only [List.mem_singleton] at hc
      subst hc
      have : ∀ d < 10, 48 ≤ (Char.ofNat (48 + d)).toNat ∧ (Char.ofNat (48 + d)).toNat ≤ 57 := by
        decide
      exact this n h
    · rw [natDigits_ge (by omega)] at hc
      rcases List.mem_append.mp hc with hc | hc
      · exact ih (n / 10) (by omega) c hc
      · simp only [List.mem_singleton] at hc
        subst hc
        have : ∀ d < 10, 48 ≤ (Char.ofNat (48 + d)).toNat ∧ (Char.ofNat (48 + d)).toNat ≤ 57 := by
          decide
        exact this (n % 10) (by omega)

theorem natDigits_ne_nil (n : Nat) : natDigits n ≠ [] := by
  by_cases h : n < 10
  · rw [natDigits_lt h]; simp
  · rw [natDigits_ge (by omega)]; simp

/-- The numeric value of a digit string. -/
def digitsVal (ds : Str) : Nat := ds.foldl (fun a c => 10 * a + (c.toNat - 48)) 0

theorem digitsVal_natDigits : ∀ n : Nat, digitsVal (natDigits n) = n := by
  intro n
  induction n using Nat.strong_induction_on with
  | _ n ih =>
    by_cases h : n < 10
    · rw [natDigits_lt h]
      show 10 * 0 + ((Char.ofNat (48 + n)).toNat - 48) = n
      have : ∀ d < 10, (Char.ofNat (48 + d)).toNat = 48 + d := by decide
      rw [this n h]
      omega
    · rw [natDigits_ge (by omega)]
      unfold digitsVal
      rw [List.foldl_append]
      have hval : (natDigits (n / 10)).foldl (fun a c => 10 * a + (c.toNat - 48)) 0 = n / 10 :=
        ih (n / 10) (by omega)
      rw [hval]
      show 10 * (n / 10) + ((Char.ofNat (48 + n % 10)).toNat - 48) = n
      have : ∀ d < 10, (Char.ofNat (48 + d)).toNat = 48 + d := by decide
      rw [this (n % 10) (by omega)]
      omega

theorem natDigits_injective {i k : Nat} (h : natDigits i = natDigits k) : i = k := by
  have := congrArg digitsVal h
  rwa [digitsVal_natDigits, digitsVal_natDigits] at this

/-- If neither block before a separator character contains the separator,
a prefix relation between the two separated strings forces the blocks to
coincide. -/
theorem sep_prefix_eq {s : Char} :
    ∀ {a b u v : Str}, (∀ c ∈ a, c ≠ s) → (∀ c ∈ b, c ≠ s) →
      (a ++ s :: u) <+: (b ++ s :: v) → a = b ∧ u <+: v := by
  intro a
  induction a with
  | nil =>
    intro b u v _ hb h
    cases b with
    | nil =>
      simp only [List.nil_append, List.cons_prefix_cons] at h
      exact ⟨rfl, h.2⟩
    | cons d b' =>
      simp only [List.nil_append, List.cons_append, List.cons_prefix_cons] at h
      exact absurd h.1.symm (hb d (by simp))
  | cons c a' ih =>
    intro b u v ha hb h
    cases b with
    | nil =>
      simp only [List.cons_append, List.nil_append, List.cons_prefix_cons] at h
      exact absurd h.1 (ha c (by simp))
    | cons d b' =>
      simp only [List.cons_append, List.cons_prefix_cons] at h
      obtain ⟨rfl, h2⟩ := h
      obtain ⟨rfl, h3⟩ := ih (fun x hx => ha x (by simp [hx]))
        (fun x hx => hb x (by simp [hx])) h2
      exact ⟨rfl, h3⟩

theorem natDigits_ne_gt {n : Nat} {c : Char} (hc : c ∈ natDigits n) : c ≠ '>' := by
  intro h
  have := natDigits_digit n c hc
  rw [h] at this
  exact absurd this.2 (by decide)

theorem natDigits_ne_lt {n : Nat} {c : Char} (hc : c ∈ natDigits n) : c ≠ '<' := by
  intro h
  have := natDigits_digit n c hc
  rw [h] at this
  exact absurd this.2 (by decide)

/-- The decimal blocks of two distinct ids cannot be prefix-aligned across
their closing `'>'`. -/
theorem digits_gt_not_prefix {i k : Nat} (hik : i ≠ k) (b : Str) :
    ¬ (natDigits i ++ '>' :: []) <+: (natDigits k ++ '>' :: b) := by
  intro h
  obtain ⟨heq, _⟩ := sep_prefix_eq (fun c hc => natDigits_ne_gt hc)
    (fun c hc => natDigits_ne_gt hc) h
  exact hik (natDigits_injective heq)

theorem ragTag_inj {i k : Nat} (h : ragTag i = ragTag k) : i = k := by
  unfold ragTag at h
  repeat injection h with _ h
  exact natDigits_injective (List.append_cancel_right h)

theorem netTag_inj {i k : Nat} (h : netTag i = netTag k) : i = k := by
  unfold netTag at h
  repeat injection h with _ h
  exact natDigits_injective (List.append_cancel_right h)

theorem not_prefix_of_second_ne {x a b : Char} {u v : Str} (hab : a ≠ b) :
    ¬ (x :: a :: u) <+: (x :: b :: v) := by
  intro h
  rcases List.cons_prefix_cons.mp h with ⟨-, h⟩
  rcases List.cons_prefix_cons.mp h with ⟨h1, -⟩
  exact hab h1

theorem not_prefix_of_third_ne {x y a b : Char} {u v : Str} (hab : a ≠ b) :
    ¬ (x :: y :: a :: u) <+: (x :: y :: b :: v) := by
  intro h
  rcases List.cons_prefix_cons.mp h with ⟨-, h⟩
  rcases List.cons_prefix_cons.mp h with ⟨-, h⟩
  rcases List.cons_prefix_cons.mp h with ⟨h1, -⟩
  exact hab h1

/-! Pairwise non-alignment of the four citation-tag families: no tag
string is a prefix of a different tag string followed by anything. -/

theorem ragTag_np_ragTag {i k : Nat} (hik : k ≠ i) (b : Str) : ¬ ragTag k <+: ragTag i ++ b := by
  intro h
  simp only [ragTag, List.cons_append, List.cons_prefix_cons, true_and] at h
  rw [List.append_assoc] at h
  exact digits_gt_not_prefix hik b h

theorem netTag_np_netTag {i k : Nat} (hik : k ≠ i) (b : Str) : ¬ netTag k <+: netTag i ++ b := by
  intro h
  simp only [netTag, List.cons_append, List.cons_prefix_cons, true_and] at h
  rw [List.append_assoc] at h
  exact digits_gt_not_prefix hik b h

theorem ragClose_np_ragTag (i : Nat) (b : Str) : ¬ ragClose <+: ragTag i ++ b := by
  simp only [ragClose, ragTag, List.cons_append]
  exact not_prefix_of_second_ne (by decide)

theorem netTag_np_ragTag (j i : Nat) (b : Str) : ¬ netTag j <+: ragTag i ++ b := by
  simp only [netTag, ragTag, List.cons_append]
  exact not_prefix_of_second_ne (by decide)

theorem netClose_np_ragTag (i : Nat) (b : Str) : ¬ netClose <+: ragTag i ++ b := by
  simp only [netClose, ragTag, List.cons_append]
  exact not_prefix_of_second_ne (by decide)

theorem ragTag_np_ragClose (i : Nat) (b : Str) : ¬ ragTag i <+: ragClose ++ b := by
  simp only [ragClose, ragTag, List.cons_append]
  exact not_prefix_of_second_ne (by decide)

theorem netTag_np_ragClose (j : Nat) (b : Str) : ¬ netTag j <+: ragClose ++ b := by
  simp only [ragClose, netTag, List.cons_append]
  exact not_prefix_of_second_ne (by decide)

theorem netClose_np_ragClose (b : Str) : ¬ netClose <+: ragClose ++ b := by
  simp only [ragClose, netClose, List.cons_append]
  exact not_prefix_of_third_ne (by decide)

theorem ragTag_np_netTag (i j : Nat) (b : Str) : ¬ ragTag i <+: netTag j ++ b := by
  simp only [netTag, ragTag, List.cons_append]
  exact not_prefix_of_second_ne (by decide)

theorem ragClose_np_netTag (j : Nat) (b : Str) : ¬ ragClose <+: netTag j ++ b := by
  simp only [ragClose, netTag, List.cons_append]
  exact not_prefix_of_second_ne (by decide)

theorem netClose_np_netTag (j : Nat) (b : Str) : ¬ netClose <+: netTag j ++ b := by
  simp only [netClose, netTag, List.cons_append]
  exact not_prefix_of_second_ne (by decide)

theorem ragTag_np_netClose (i : Nat) (b : Str) : ¬ ragTag i <+: netClose ++ b := by
  simp only [netClose, ragTag, List.cons_append]
  exact not_prefix_of_second_ne (by decide)

theorem ragClose_np_netClose (b : Str) : ¬ ragClose <+: netClose ++ b := by
  simp only [ragClose, netClose, List.cons_append]
  exact not_prefix_of_third_ne (by decide)

theorem netTag_np_netClose (j : Nat) (b : Str) : ¬ netTag j <+: netClose ++ b := by
  simp only [netClose, netTag, List.cons_append]
  exact not_prefix_of_second_ne (by decide)

/-- A tag-shaped string: starts with `'<'` and contains no further `'<'`. -/
def TagStr (t : Str) : Prop := ∃ w, t = '<' :: w ∧ '<' ∉ w

theorem tagStr_ragTag (i : Nat) : TagStr (ragTag i) := by
  refine ⟨_, rfl, ?_⟩
  intro hmem
  simp only [List.mem_cons, List.mem_append, List.mem_singleton] at hmem
  rcases hmem with h | h | h | h | h | h | h | h | h
  all_goals first
    | exact absurd h (by decide)
    | exact natDigits_ne_lt h rfl

theorem tagStr_netTag (i : Nat) : TagStr (netTag i) := by
  refine ⟨_, rfl, ?_⟩
  intro hmem
  simp only [List.mem_cons, List.mem_append, List.mem_singleton] at hmem
  rcases hmem with h | h | h | h | h | h | h | h | h | h | h | h | h | h
  all_goals first
    | exact absurd h (by decide)
    | exact natDigits_ne_lt h rfl

theorem tagStr_ragClose : TagStr ragClose := ⟨_, rfl, by decide⟩

theorem tagStr_netClose : TagStr netClose := ⟨_, rfl, by decide⟩

theorem tagStr_ne_nil {p : Str} (hp : TagStr p) : p ≠ [] := by
  obtain ⟨w, rfl, -⟩ := hp
  simp

theorem no_match_within_plain {p a X : Str} (ha : '<' ∉ a) (hp : ∃ p', p = '<' :: p') :
    ∀ j < a.length, ¬ p <+: List.drop j (a ++ X) := by
  intro j hj hpre
  obtain ⟨p', rfl⟩ := hp
  rw [List.drop_append_of_le_length (le_of_lt hj)] at hpre
  have hne : a.drop j ≠ [] := by
    intro h
    have := congrArg List.length h
    simp only [List.length_drop, List.length_nil] at this
    omega
  obtain ⟨c, rest, hcr⟩ := List.exists_cons_of_ne_nil hne
  rw [hcr, List.cons_append] at hpre
  rcases List.cons_prefix_cons.mp hpre with ⟨h1, -⟩
  apply ha
  rw [h1]
  exact List.drop_subset j a (hcr ▸ List.mem_cons_self c rest)

theorem no_match_within_tagstr {p t X : Str} (ht : TagStr t) (hp : ∃ p', p = '<' :: p')
    (h0 : ∀ b, ¬ p <+: t ++ b) : ∀ j < t.length, ¬ p <+: List.drop j (t ++ X) := by
  intro j hj hpre
  obtain ⟨w, rfl, hw⟩ := ht
  cases j with
  | zero => exact h0 X (by simpa using hpre)
  | succ j' =>
    rw [List.cons_append, List.drop_succ_cons] at hpre
    exact no_match_within_plain hw hp j'
      (by simp only [List.length_cons] at hj; omega) hpre

/-! ## A segment view of tagged texts

A text built from `'<'`-free plain segments and complete citation tags.
`replace_reference_tags` acts segment-wise on such texts, which is the key
to the substitution properties. -/

/-- One segment of a well-formed tagged text. -/
inductive Seg where
  | plain (s : Str)
  | ragOpen (i : Nat)
  | ragCloseSeg
  | netOpen (i : Nat)
  | netCloseSeg
deriving DecidableEq

/-- The text of a segment. -/
def Seg.render : Seg → Str
  | .plain s => s
  | .ragOpen i => ragTag i
  | .ragCloseSeg => ragClose
  | .netOpen i => netTag i
  | .netCloseSeg => netClose

/-- Tag segments (everything except plain text). -/
def Seg.isTag : Seg → Prop
  | .plain _ => False
  | _ => True

/-- A well-formed segment: plain text contains no `'<'`. -/
def WfSeg : Seg → Prop
  | .plain s => '<' ∉ s
  | _ => True

/-- The text of a segment list. -/
def renderSegs (L : List Seg) : Str := (L.map Seg.render).flatten

theorem renderSegs_nil : renderSegs [] = [] := rfl

theorem renderSegs_cons (σ : Seg) (L : List Seg) :
    renderSegs (σ :: L) = σ.render ++ renderSegs L := by
  simp [renderSegs]

theorem tagStr_render {σ : Seg} (hσ : σ.isTag) : TagStr σ.render := by
  cases σ with
  | plain s => exact absurd hσ (by simp [Seg.isTag])
  | ragOpen i => exact tagStr_ragTag i
  | ragCloseSeg => exact tagStr_ragClose
  | netOpen i => exact tagStr_netTag i
  | netCloseSeg => exact tagStr_netClose

/-- A tag string never matches starting at a different tag string. -/
theorem tag_render_np {τ σ : Seg} (hτ : τ.isTag) (hσ : σ.isTag)
    (hne : σ.render ≠ τ.render) (b : Str) : ¬ τ.render <+: σ.render ++ b := by
  cases τ with
  | plain s => exact absurd hτ (by simp [Seg.isTag])
  | ragOpen q =>
    cases σ with
    | plain s => exact absurd hσ (by simp [Seg.isTag])
    | ragOpen i =>
      refine ragTag_np_ragTag (fun h => hne ?_) b
      rw [h]
    | ragCloseSeg => exact ragTag_np_ragClose q b
    | netOpen i => exact ragTag_np_netTag q i b
    | netCloseSeg => exact ragTag_np_netClose q b
  | ragCloseSeg =>
    cases σ with
    | plain s => exact absurd hσ (by simp [Seg.isTag])
    | ragOpen i => exact ragClose_np_ragTag i b
    | ragCloseSeg => exact absurd rfl hne
    | netOpen i => exact ragClose_np_netTag i b
    | netCloseSeg => exact ragClose_np_netClose b
  | netOpen q =>
    cases σ with
    | plain s => exact absurd hσ (by simp [Seg.isTag])
    | ragOpen i => exact netTag_np_ragTag q i b
    | ragCloseSeg => exact netTag_np_ragClose q b
    | netOpen i =>
      refine netTag_np_netTag (fun h => hne ?_) b
      rw [h]
    | netCloseSeg => exact netTag_np_netClose q b
  | netCloseSeg =>
    cases σ with
    | plain s => exact absurd hσ (by simp [Seg.isTag])
    | ragOpen i => exact netClose_np_ragTag i b
    | ragCloseSeg => exact netClose_np_ragClose b
    | netOpen i => exact netClose_np_netTag i b
    | netCloseSeg => exact absurd rfl hne

/-- The segment-level effect of one `str.replace` call whose pattern is the
tag `p` and whose replacement is `r`. -/
def substSeg (p r : Str) (σ : Seg) : Seg :=
  if σ.render = p then .plain r else σ

theorem wfSeg_substSeg {p r : Str} (hr : '<' ∉ r) {σ : Seg} (h : WfSeg σ) :
    WfSeg (substSeg p r σ) := by
  unfold substSeg
  split
  · exact hr
  · exact h

/-- `replaceAll` with a tag pattern acts segment-wise on a well-formed
tagged text. -/
theorem replaceAll_renderSegs {τ : Seg} (hτ : τ.isTag) (r : Str) :
    ∀ (L : List Seg), (∀ σ ∈ L, WfSeg σ) →
      replaceAll τ.render r (renderSegs L) = renderSegs (L.map (substSeg τ.render r)) := by
  have hts : TagStr τ.render := tagStr_render hτ
  have hpex : ∃ p', τ.render = '<' :: p' := ⟨hts.choose, hts.choose_spec.1⟩
  intro L
  induction L with
  | nil => intro _; simp [renderSegs_nil, replaceAll_nil]
  | cons σ L ih =>
    intro hwf
    rw [renderSegs_cons, List.map_cons, renderSegs_cons]
    by_cases hren : σ.render = τ.render
    · rw [hren, replaceAll_append_head r _ (tagStr_ne_nil hts)]
      rw [ih (fun σ' h' => hwf σ' (List.mem_cons_of_mem σ h'))]
      have : (substSeg τ.render r σ).render = r := by
        unfold substSeg
        rw [if_pos hren]
        rfl
      rw [this]
    · have hnom : ∀ j < σ.render.length,
          ¬ τ.render <+: List.drop j (σ.render ++ renderSegs L) := by
        cases σ with
        | plain s =>
          exact no_match_within_plain (hwf _ (List.mem_cons_self _ _)) hpex
        | ragOpen i =>
          exact no_match_within_tagstr (tagStr_render (by trivial)) hpex
            (tag_render_np hτ (by trivial) hren)
        | ragCloseSeg =>
          exact no_match_within_tagstr (tagStr_render (by trivial)) hpex
            (tag_render_np hτ (by trivial) hren)
        | netOpen i =>
          exact no_match_within_tagstr (tagStr_render (by trivial)) hpex
            (tag_render_np hτ (by trivial) hren)
        | netCloseSeg =>
          exact no_match_within_tagstr (tagStr_render (by trivial)) hpex
            (tag_render_np hτ (by trivial) hren)
      rw [replaceAll_append_no_match r _ hnom]
      rw [ih (fun σ' h' => hwf σ' (List.mem_cons_of_mem σ h'))]
      have : (substSeg τ.render r σ).render = σ.render := by
        unfold substSeg
        rw [if_neg hren]
      rw [this]

theorem bracket_no_lt {ref : Str} (h : '<' ∉ ref) : '<' ∉ ('[' :: ref ++ [']']) := by
  intro hm
  simp only [List.mem_cons, List.mem_append, List.mem_singleton] at hm
  rcases hm with (h1 | h1) | h1 | h1 | h1
  all_goals first
    | exact absurd h1 (by decide)
    | exact h h1

theorem wf_map_substSeg {p r : Str} (hr : '<' ∉ r) {L : List Seg}
    (h : ∀ σ ∈ L, WfSeg σ) : ∀ σ ∈ L.map (substSeg p r), WfSeg σ := by
  intro σ hσ
  obtain ⟨σ0, h0, rfl⟩ := List.mem_map.mp hσ
  exact wfSeg_substSeg hr (h σ0 h0)

/-! Render-level inequalities between distinct tag families. -/

theorem netTag_ne_ragTag (j i : Nat) : netTag j ≠ ragTag i := by
  intro h
  unfold netTag ragTag at h
  injection h with _ h
  injection h with h _
  exact absurd h (by decide)

theorem ragClose_ne_ragTag (i : Nat) : ragClose ≠ ragTag i := by
  intro h
  unfold ragClose ragTag at h
  injection h with _ h
  injection h with h _
  exact absurd h (by decide)

theorem netClose_ne_ragTag (i : Nat) : netClose ≠ ragTag i := by
  intro h
  unfold netClose ragTag at h
  injection h with _ h
  injection h with h _
  exact absurd h (by decide)

theorem netTag_ne_ragClose (j : Nat) : netTag j ≠ ragClose := by
  intro h
  unfold netTag ragClose at h
  injection h with _ h
  injection h with h _
  exact absurd h (by decide)

theorem netClose_ne_ragClose : netClose ≠ ragClose := by decide

theorem netClose_ne_netTag (j : Nat) : netClose ≠ netTag j := by
  intro h
  unfold netClose netTag at h
  injection h with _ h
  injection h with h _
  exact absurd h (by decide)

theorem bracket_ne_tag {ref t : Str} (ht : TagStr t) : '[' :: ref ++ [']'] ≠ t := by
  obtain ⟨w, rfl, -⟩ := ht
  intro h
  injection h with h _
  exact absurd h (by decide)

theorem plain_render_ne_tag {s t : Str} (hs : '<' ∉ s) (ht : TagStr t) : s ≠ t := by
  obtain ⟨w, rfl, -⟩ := ht
  intro h
  exact hs (h ▸ List.mem_cons_self '<' w)

theorem substSeg_plain {p r s : Str} (hp : TagStr p) (hs : '<' ∉ s) :
    substSeg p r (.plain s) = .plain s := by
  unfold substSeg
  rw [if_neg]
  exact plain_render_ne_tag hs hp

/-! The RAG replacement loop on segment lists. -/

/-- Segment-level version of the RAG loop of `_replace_reference_tags`. -/
def ragLoopSegs : Nat → List Str → List Seg → List Seg
  | _, [], L => L
  | i, ref :: rest, L =>
      ragLoopSegs (i + 1) rest
        ((L.map (substSeg (ragTag i) ('[' :: ref ++ [']']))).map (substSeg ragClose []))

/-- Segment-level version of the Internet replacement loop. -/
def netLoopSegs : Nat → List Str → List Seg → List Seg
  | _, [], L => L
  | i, ref :: rest, L =>
      netLoopSegs (i + 1) rest
        ((L.map (substSeg (netTag i) ('[' :: ref ++ [']']))).map (substSeg netClose []))

theorem ragReplaceLoop_renderSegs :
    ∀ (refs : List Str) (i : Nat) (L : List Seg), (∀ σ ∈ L, WfSeg σ) →
      (∀ ref ∈ refs, '<' ∉ ref) →
      ragReplaceLoop i refs (renderSegs L) = renderSegs (ragLoopSegs i refs L) := by
  intro refs
  induction refs with
  | nil => intro i L _ _; rfl
  | cons ref rest ih =>
    intro i L hwf hrefs
    have hrref : '<' ∉ ref := hrefs ref (List.mem_cons_self ref rest)
    have h1 : replaceAll (ragTag i) ('[' :: ref ++ [']']) (renderSegs L) =
        renderSegs (L.map (substSeg (ragTag i) ('[' :: ref ++ [']']))) := by
      have := replaceAll_renderSegs (τ := Seg.ragOpen i) (by trivial)
        ('[' :: ref ++ [']']) L hwf
      simpa [Seg.render] using this
    have hwf1 : ∀ σ ∈ L.map (substSeg (ragTag i) ('[' :: ref ++ [']'])), WfSeg σ :=
      wf_map_substSeg (bracket_no_lt hrref) hwf
    have h2 : replaceAll ragClose []
          (renderSegs (L.map (substSeg (ragTag i) ('[' :: ref ++ [']'])))) =
        renderSegs ((L.map (substSeg (ragTag i) ('[' :: ref ++ [']']))).map
          (substSeg ragClose [])) := by
      have := replaceAll_renderSegs (τ := Seg.ragCloseSeg) (by trivial) []
        (L.map (substSeg (ragTag i) ('[' :: ref ++ [']']))) hwf1
      simpa [Seg.render] using this
    show ragReplaceLoop (i + 1) rest
        (replaceAll ragClose [] (replaceAll (ragTag i) ('[' :: ref ++ [']'])
          (renderSegs L))) = _
    rw [h1, h2]
    exact ih (i + 1) _ (wf_map_substSeg (by simp) hwf1)
      (fun r hr => hrefs r (List.mem_cons_of_mem ref hr))

theorem netReplaceLoop_renderSegs :
    ∀ (refs : List Str) (i : Nat) (L : List Seg), (∀ σ ∈ L, WfSeg σ) →
      (∀ ref ∈ refs, '<' ∉ ref) →
      netReplaceLoop i refs (renderSegs L) = renderSegs (netLoopSegs i refs L) := by
  intro refs
  induction refs with
  | nil => intro i L _ _; rfl
  | cons ref rest ih =>
    intro i L hwf hrefs
    have hrref : '<' ∉ ref := hrefs ref (List.mem_cons_self ref rest)
    have h1 : replaceAll (netTag i) ('[' :: ref ++ [']']) (renderSegs L) =
        renderSegs (L.map (substSeg (netTag i) ('[' :: ref ++ [']']))) := by
      have := replaceAll_renderSegs (τ := Seg.netOpen i) (by trivial)
        ('[' :: ref ++ [']']) L hwf
      simpa [Seg.render] using this
    have hwf1 : ∀ σ ∈ L.map (substSeg (netTag i) ('[' :: ref ++ [']'])), WfSeg σ :=
      wf_map_substSeg (bracket_no_lt hrref) hwf
    have h2 : replaceAll netClose []
          (renderSegs (L.map (substSeg (netTag i) ('[' :: ref ++ [']'])))) =
        renderSegs ((L.map (substSeg (netTag i) ('[' :: ref ++ [']']))).map
          (substSeg netClose [])) := by
      have := replaceAll_renderSegs (τ := Seg.netCloseSeg) (by trivial) []
        (L.map (substSeg (netTag i) ('[' :: ref ++ [']']))) hwf1
      simpa [Seg.render] using this
    show netReplaceLoop (i + 1) rest
        (replaceAll netClose [] (replaceAll (netTag i) ('[' :: ref ++ [']'])
          (renderSegs L))) = _
    rw [h1, h2]
    exact ih (i + 1) _ (wf_map_substSeg (by simp) hwf1)
      (fun r hr => hrefs r (List.mem_cons_of_mem ref hr))

/-- The per-segment effect of the whole RAG loop (fold of the two
substitutions over the reference list). -/
def ragSegMap : Nat → List Str → Seg → Seg
  | _, [] => fun σ => σ
  | i, ref :: rest => fun σ =>
      ragSegMap (i + 1) rest (substSeg ragClose [] (substSeg (ragTag i) ('[' :: ref ++ [']']) σ))

/-- The per-segment effect of the whole Internet loop. -/
def netSegMap : Nat → List Str → Seg → Seg
  | _, [] => fun σ => σ
  | i, ref :: rest => fun σ =>
      netSegMap (i + 1) rest (substSeg netClose [] (substSeg (netTag i) ('[' :: ref ++ [']']) σ))

theorem ragLoopSegs_eq_map :
    ∀ (refs : List Str) (i : Nat) (L : List Seg),
      ragLoopSegs i refs L = L.map (ragSegMap i refs) := by
  intro refs
  induction refs with
  | nil =>
    intro i L
    show L = L.map (fun σ => σ)
    rw [List.map_id']
  | cons ref rest ih =>
    intro i L
    show ragLoopSegs (i + 1) rest _ = _
    rw [ih (i + 1), List.map_map, List.map_map]
    rfl

theorem netLoopSegs_eq_map :
    ∀ (refs : List Str) (i : Nat) (L : List Seg),
      netLoopSegs i refs L = L.map (netSegMap i refs) := by
  intro refs
  induction refs with
  | nil =>
    intro i L
    show L = L.map (fun σ => σ)
    rw [List.map_id']
  | cons ref rest ih =>
    intro i L
    show netLoopSegs (i + 1) rest _ = _
    rw [ih (i + 1), List.map_map, List.map_map]
    rfl

theorem ragSegMap_plain :
    ∀ (refs : List Str) (i : Nat) {s : Str}, '<' ∉ s →
      ragSegMap i refs (.plain s) = .plain s := by
  intro refs
  induction refs with
  | nil => intro i s _; rfl
  | cons ref rest ih =>
    intro i s hs
    show ragSegMap (i + 1) rest
      (substSeg ragClose [] (substSeg (ragTag i) ('[' :: ref ++ [']']) (.plain s))) = _
    rw [substSeg_plain (tagStr_ragTag i) hs, substSeg_plain tagStr_ragClose hs]
    exact ih (i + 1) hs

theorem netSegMap_plain :
    ∀ (refs : List Str) (i : Nat) {s : Str}, '<' ∉ s →
      netSegMap i refs (.plain s) = .plain s := by
  intro refs
  induction refs with
  | nil => intro i s _; rfl
  | cons ref rest ih =>
    intro i s hs
    show netSegMap (i + 1) rest
      (substSeg netClose [] (substSeg (netTag i) ('[' :: ref ++ [']']) (.plain s))) = _
    rw [substSeg_plain (tagStr_netTag i) hs, substSeg_plain tagStr_netClose hs]
    exact ih (i + 1) hs

theorem substSeg_ne (p r : Str) (σ : Seg) (h : σ.render ≠ p) : substSeg p r σ = σ := by
  unfold substSeg
  rw [if_neg h]

theorem substSeg_eq (p r : Str) (σ : Seg) (h : σ.render = p) : substSeg p r σ = .plain r := by
  unfold substSeg
  rw [if_pos h]

theorem ragSegMap_netOpen :
    ∀ (refs : List Str) (i k : Nat), ragSegMap i refs (.netOpen k) = .netOpen k := by
  intro refs
  induction refs with
  | nil => intro i k; rfl
  | cons ref rest ih =>
    intro i k
    show ragSegMap (i + 1) rest
      (substSeg ragClose [] (substSeg (ragTag i) ('[' :: ref ++ [']']) (.netOpen k))) = _
    rw [substSeg_ne (ragTag i) ('[' :: ref ++ [']']) (.netOpen k) (netTag_ne_ragTag k i),
      substSeg_ne ragClose [] (.netOpen k) (netTag_ne_ragClose k)]
    exact ih (i + 1) k

theorem ragSegMap_netCloseSeg :
    ∀ (refs : List Str) (i : Nat), ragSegMap i refs .netCloseSeg = .netCloseSeg := by
  intro refs
  induction refs with
  | nil => intro i; rfl
  | cons ref rest ih =>
    intro i
    show ragSegMap (i + 1) rest
      (substSeg ragClose [] (substSeg (ragTag i) ('[' :: ref ++ [']']) .netCloseSeg)) = _
    rw [substSeg_ne (ragTag i) ('[' :: ref ++ [']']) .netCloseSeg (netClose_ne_ragTag i),
      substSeg_ne ragClose [] .netCloseSeg netClose_ne_ragClose]
    exact ih (i + 1)

theorem ragSegMap_ragCloseSeg :
    ∀ (refs : List Str) (i : Nat), refs ≠ [] → ragSegMap i refs .ragCloseSeg = .plain [] := by
  intro refs
  cases refs with
  | nil => intro i h; exact absurd rfl h
  | cons ref rest =>
    intro i _
    show ragSegMap (i + 1) rest
      (substSeg ragClose [] (substSeg (ragTag i) ('[' :: ref ++ [']']) .ragCloseSeg)) = _
    rw [substSeg_ne (ragTag i) ('[' :: ref ++ [']']) .ragCloseSeg (ragClose_ne_ragTag i),
      substSeg_eq ragClose [] .ragCloseSeg rfl]
    exact ragSegMap_plain rest (i + 1) (by simp)

theorem ragSegMap_ragOpen_hit :
    ∀ (refs : List Str) (i k : Nat), i ≤ k → k < i + refs.length →
      (∀ ref ∈ refs, '<' ∉ ref) →
      ragSegMap i refs (.ragOpen k) = .plain ('[' :: refs.getD (k - i) [] ++ [']']) := by
  intro refs
  induction refs with
  | nil => intro i k h1 h2 _; simp at h2; omega
  | cons ref rest ih =>
    intro i k h1 h2 hrefs
    show ragSegMap (i + 1) rest
      (substSeg ragClose [] (substSeg (ragTag i) ('[' :: ref ++ [']']) (.ragOpen k))) = _
    by_cases hk : k = i
    · subst hk
      rw [substSeg_eq (ragTag k) ('[' :: ref ++ [']']) (.ragOpen k) rfl,
        substSeg_ne ragClose [] (.plain ('[' :: ref ++ [']']))
          (bracket_ne_tag tagStr_ragClose)]
      rw [ragSegMap_plain rest (k + 1) (bracket_no_lt (hrefs ref (List.mem_cons_self ref rest)))]
      simp
    · rw [substSeg_ne (ragTag i) ('[' :: ref ++ [']']) (.ragOpen k)
          (fun h => hk (ragTag_inj h)),
        substSeg_ne ragClose [] (.ragOpen k) ((ragClose_ne_ragTag k).symm)]
      rw [ih (i + 1) k (by omega) (by simp only [List.length_cons] at h2; omega)
        (fun r hr => hrefs r (List.mem_cons_of_mem ref hr))]
      have hki : k - i = (k - (i + 1)) + 1 := by omega
      rw [hki]
      rfl

theorem ragSegMap_ragOpen_miss :
    ∀ (refs : List Str) (i k : Nat), (k < i ∨ i + refs.length ≤ k) →
      ragSegMap i refs (.ragOpen k) = .ragOpen k := by
  intro refs
  induction refs with
  | nil => intro i k _; rfl
  | cons ref rest ih =>
    intro i k hb
    show ragSegMap (i + 1) rest
      (substSeg ragClose [] (substSeg (ragTag i) ('[' :: ref ++ [']']) (.ragOpen k))) = _
    have hk : k ≠ i := by
      simp only [List.length_cons] at hb
      omega
    rw [substSeg_ne (ragTag i) ('[' :: ref ++ [']']) (.ragOpen k)
        (fun h => hk (ragTag_inj h)),
      substSeg_ne ragClose [] (.ragOpen k) ((ragClose_ne_ragTag k).symm)]
    refine ih (i + 1) k ?_
    simp only [List.length_cons] at hb
    omega

theorem netSegMap_ragOpen :
    ∀ (refs : List Str) (i k : Nat), netSegMap i refs (.ragOpen k) = .ragOpen k := by
  intro refs
  induction refs with
  | nil => intro i k; rfl
  | cons ref rest ih =>
    intro i k
    show netSegMap (i + 1) rest
      (substSeg netClose [] (substSeg (netTag i) ('[' :: ref ++ [']']) (.ragOpen k))) = _
    rw [substSeg_ne (netTag i) ('[' :: ref ++ [']']) (.ragOpen k)
        (fun h => netTag_ne_ragTag i k h.symm),
      substSeg_ne netClose [] (.ragOpen k) (fun h => netClose_ne_ragTag k h.symm)]
    exact ih (i + 1) k

theorem netSegMap_ragCloseSeg :
    ∀ (refs : List Str) (i : Nat), netSegMap i refs .ragCloseSeg = .ragCloseSeg := by
  intro refs
  induction refs with
  | nil => intro i; rfl
  | cons ref rest ih =>
    intro i
    show netSegMap (i + 1) rest
      (substSeg netClose [] (substSeg (netTag i) ('[' :: ref ++ [']']) .ragCloseSeg)) = _
    rw [substSeg_ne (netTag i) ('[' :: ref ++ [']']) .ragCloseSeg
        (fun h => netTag_ne_ragClose i h.symm),
      substSeg_ne netClose [] .ragCloseSeg (fun h => netClose_ne_ragClose h.symm)]
    exact ih (i + 1)

theorem netSegMap_netCloseSeg :
    ∀ (refs : List Str) (i : Nat), refs ≠ [] → netSegMap i refs .netCloseSeg = .plain [] := by
  intro refs
  cases refs with
  | nil => intro i h; exact absurd rfl h
  | cons ref rest =>
    intro i _
    show netSegMap (i + 1) rest
      (substSeg netClose [] (substSeg (netTag i) ('[' :: ref ++ [']']) .netCloseSeg)) = _
    rw [substSeg_ne (netTag i) ('[' :: ref ++ [']']) .netCloseSeg (netClose_ne_netTag i),
      substSeg_eq netClose [] .netCloseSeg rfl]
    exact netSegMap_plain rest (i + 1) (by simp)

theorem netSegMap_netOpen_hit :
    ∀ (refs : List Str) (i k : Nat), i ≤ k → k < i + refs.length →
      (∀ ref ∈ refs, '<' ∉ ref) →
      netSegMap i refs (.netOpen k) = .plain ('[' :: refs.getD (k - i) [] ++ [']']) := by
  intro refs
  induction refs with
  | nil => intro i k h1 h2 _; simp at h2; omega
  | cons ref rest ih =>
    intro i k h1 h2 hrefs
    show netSegMap (i + 1) rest
      (substSeg netClose [] (substSeg (netTag i) ('[' :: ref ++ [']']) (.netOpen k))) = _
    by_cases hk : k = i
    · subst hk
      rw [substSeg_eq (netTag k) ('[' :: ref ++ [']']) (.netOpen k) rfl,
        substSeg_ne netClose [] (.plain ('[' :: ref ++ [']']))
          (bracket_ne_tag tagStr_netClose)]
      rw [netSegMap_plain rest (k + 1) (bracket_no_lt (hrefs ref (List.mem_cons_self ref rest)))]
      simp
    · rw [substSeg_ne (netTag i) ('[' :: ref ++ [']']) (.netOpen k)
          (fun h => hk (netTag_inj h)),
        substSeg_ne netClose [] (.netOpen k) (fun h => netClose_ne_netTag k h.symm)]
      rw [ih (i + 1) k (by omega) (by simp only [List.length_cons] at h2; omega)
        (fun r hr => hrefs r (List.mem_cons_of_mem ref hr))]
      have hki : k - i = (k - (i + 1)) + 1 := by omega
      rw [hki]
      rfl

theorem netSegMap_netOpen_miss :
    ∀ (refs : List Str) (i k : Nat), (k < i ∨ i + refs.length ≤ k) →
      netSegMap i refs (.netOpen k) = .netOpen k := by
  intro refs
  induction refs with
  | nil => intro i k _; rfl
  | cons ref rest ih =>
    intro i k hb
    show netSegMap (i + 1) rest
      (substSeg netClose [] (substSeg (netTag i) ('[' :: ref ++ [']']) (.netOpen k))) = _
    have hk : k ≠ i := by
      simp only [List.length_cons] at hb
      omega
    rw [substSeg_ne (netTag i) ('[' :: ref ++ [']']) (.netOpen k)
        (fun h => hk (netTag_inj h)),
      substSeg_ne netClose [] (.netOpen k) (fun h => netClose_ne_netTag k h.symm)]
    refine ih (i + 1) k ?_
    simp only [List.length_cons] at hb
    omega

theorem wfSeg_ragSegMap :
    ∀ (refs : List Str) (i : Nat) (σ : Seg), WfSeg σ → (∀ ref ∈ refs, '<' ∉ ref) →
      WfSeg (ragSegMap i refs σ) := by
  intro refs
  induction refs with
  | nil => intro i σ h _; exact h
  | cons ref rest ih =>
    intro i σ h hrefs
    exact ih (i + 1) _
      (wfSeg_substSeg (by simp)
        (wfSeg_substSeg (bracket_no_lt (hrefs ref (List.mem_cons_self ref rest))) h))
      (fun x hx => hrefs x (List.mem_cons_of_mem ref hx))

theorem wfSeg_netSegMap :
    ∀ (refs : List Str) (i : Nat) (σ : Seg), WfSeg σ → (∀ ref ∈ refs, '<' ∉ ref) →
      WfSeg (netSegMap i refs σ) := by
  intro refs
  induction refs with
  | nil => intro i σ h _; exact h
  | cons ref rest ih =>
    intro i σ h hrefs
    exact ih (i + 1) _
      (wfSeg_substSeg (by simp)
        (wfSeg_substSeg (bracket_no_lt (hrefs ref (List.mem_cons_self ref rest))) h))
      (fun x hx => hrefs x (List.mem_cons_of_mem ref hx))

/-- The per-segment effect of the whole of `_replace_reference_tags`. -/
def refSegMap (refs : RefMap) (σ : Seg) : Seg :=
  netSegMap 1 refs.InternetSearch (ragSegMap 1 refs.RAG σ)

/-- `_replace_reference_tags` acts segment-wise on a well-formed tagged
text whose reference strings contain no `'<'`. -/
theorem replace_reference_tags_renderSegs (refs : RefMap) (L : List Seg)
    (hwf : ∀ σ ∈ L, WfSeg σ) (h1 : ∀ ref ∈ refs.RAG, '<' ∉ ref)
    (h2 : ∀ ref ∈ refs.InternetSearch, '<' ∉ ref) :
    replace_reference_tags (renderSegs L) refs = renderSegs (L.map (refSegMap refs)) := by
  unfold replace_reference_tags
  rw [ragReplaceLoop_renderSegs refs.RAG 1 L hwf h1, ragLoopSegs_eq_map]
  rw [netReplaceLoop_renderSegs refs.InternetSearch 1 _
    (by
      intro σ hσ
      obtain ⟨σ0, h0, rfl⟩ := List.mem_map.mp hσ
      exact wfSeg_ragSegMap refs.RAG 1 σ0 (hwf σ0 h0) h1) h2]
  rw [netLoopSegs_eq_map, List.map_map]
  rfl

theorem infix_extend_left {l m x : Str} (h : l <:+: m) : l <:+: x ++ m := by
  obtain ⟨u, v, huv⟩ := h
  exact ⟨x ++ u, v, by rw [← huv]; simp [List.append_assoc]⟩

theorem infix_of_mem_renderSegs {σ : Seg} :
    ∀ {L : List Seg}, σ ∈ L → σ.render <:+: renderSegs L := by
  intro L
  induction L with
  | nil => intro h; exact absurd h (List.not_mem_nil σ)
  | cons τ L ih =>
    intro h
    rw [renderSegs_cons]
    rcases List.mem_cons.mp h with rfl | h
    · exact (List.prefix_append σ.render (renderSegs L)).isInfix
    · exact infix_extend_left (ih h)

theorem infix_split_plain {q a m : Str} (ha : '<' ∉ a) (hq : TagStr q)
    (h : q <:+: a ++ m) : q <:+: m := by
  induction a with
  | nil => simpa using h
  | cons c a' ih =>
    rw [List.cons_append] at h
    rcases List.infix_cons_iff.mp h with hpre | hinf
    · obtain ⟨w, rfl, -⟩ := hq
      rcases List.cons_prefix_cons.mp hpre with ⟨h1, -⟩
      exact absurd (by rw [h1]; exact List.mem_cons_self c a') ha
    · exact ih (fun hm => ha (List.mem_cons_of_mem c hm)) hinf

theorem infix_split_tag {q t m : Str} (ht : TagStr t) (h0 : ∀ b, ¬ q <+: t ++ b)
    (hq : TagStr q) (h : q <:+: t ++ m) : q <:+: m := by
  obtain ⟨w, hwt, hw⟩ := ht
  subst hwt
  rw [List.cons_append] at h
  rcases List.infix_cons_iff.mp h with hpre | hinf
  · exact absurd (by rw [List.cons_append]; exact hpre) (h0 m)
  · exact infix_split_plain hw hq hinf

theorem not_infix_renderSegs {q : Str} (hq : TagStr q) :
    ∀ (L : List Seg),
      (∀ σ ∈ L, (∃ s, σ = .plain s ∧ '<' ∉ s) ∨
        (σ.isTag ∧ ∀ b, ¬ q <+: σ.render ++ b)) →
      ¬ q <:+: renderSegs L := by
  intro L
  induction L with
  | nil =>
    intro _ h
    rw [renderSegs_nil] at h
    obtain ⟨w, rfl, -⟩ := hq
    exact absurd (List.eq_nil_of_infix_nil h) (by simp)
  | cons σ L ih =>
    intro hall h
    rw [renderSegs_cons] at h
    rcases hall σ (List.mem_cons_self σ L) with ⟨s, rfl, hs⟩ | ⟨hσ, hnp⟩
    · exact ih (fun τ hτ => hall τ (List.mem_cons_of_mem _ hτ))
        (infix_split_plain hs hq h)
    · exact ih (fun τ hτ => hall τ (List.mem_cons_of_mem _ hτ))
        (infix_split_tag (tagStr_render hσ) hnp hq h)

/-- `str.replace` with a tag pattern `p` leaves every occurrence of a
non-aligned tag `q` in place. -/
theorem replaceAll_keeps_tag {p q : Str} (r : Str) (hp : TagStr p) (hq : TagStr q)
    (hqp : ∀ X, ¬ q <+: p ++ X) :
    ∀ (n : Nat) (s : Str), s.length ≤ n → q <:+: s → q <:+: replaceAll p r s := by
  intro n
  induction n with
  | zero =>
    intro s hs h
    have : s = [] := List.length_eq_zero.mp (Nat.le_zero.mp hs)
    subst this
    rw [replaceAll_nil]
    exact h
  | succ n ih =>
    intro s hs h
    cases s with
    | nil =>
      rw [replaceAll_nil]
      exact h
    | cons c t =>
      simp only [List.length_cons] at hs
      by_cases hm : p.isPrefixOf (c :: t) ∧ p ≠ []
      · rw [replaceAll_cons_pos r hm.1 hm.2]
        obtain ⟨s₂, hs₂⟩ := List.isPrefixOf_iff_prefix.mp hm.1
        have hq2 : q <:+: s₂ := infix_split_tag hp hqp hq (by rw [hs₂]; exact h)
        have hdrop : List.drop p.length (c :: t) = s₂ := by
          rw [← hs₂, List.drop_left]
        rw [hdrop]
        have hplen : 0 < p.length := List.length_pos.mpr hm.2
        have hlen : s₂.length ≤ n := by
          have := congrArg List.length hs₂
          simp only [List.length_append, List.length_cons] at this
          omega
        exact infix_extend_left (ih s₂ hlen hq2)
      · rw [replaceAll_cons_neg r hm]
        rcases List.infix_cons_iff.mp h with hpre | hinf
        · obtain ⟨w, hqw, hw⟩ := hq
          subst hqw
          rcases List.cons_prefix_cons.mp hpre with ⟨hc, hwt⟩
          obtain ⟨t₂, ht₂⟩ := hwt
          have hrw : replaceAll p r t = w ++ replaceAll p r t₂ := by
            rw [← ht₂]
            exact replaceAll_append_no_match r w
              (no_match_within_plain hw ⟨hp.choose, hp.choose_spec.1⟩)
          rw [hrw]
          refine List.IsPrefix.isInfix ?_
          rw [← hc]
          exact List.cons_prefix_cons.mpr ⟨rfl, List.prefix_append w _⟩
        · have : q <:+: replaceAll p r t := ih t (by omega) hinf
          exact infix_extend_left (x := [c]) this

theorem ragReplaceLoop_keeps_tag {q : Str} (hq : TagStr q)
    (hq2 : ∀ i X, ¬ q <+: ragTag i ++ X) (hq4 : ∀ X, ¬ q <+: ragClose ++ X) :
    ∀ (refs : List Str) (i : Nat) (text : Str),
      q <:+: text → q <:+: ragReplaceLoop i refs text := by
  intro refs
  induction refs with
  | nil => intro i text h; exact h
  | cons ref rest ih =>
    intro i text h
    show q <:+: ragReplaceLoop (i + 1) rest
      (replaceAll ragClose [] (replaceAll (ragTag i) ('[' :: ref ++ [']']) text))
    refine ih (i + 1) _ ?_
    refine replaceAll_keeps_tag [] tagStr_ragClose hq hq4 _ _ (Nat.le_refl _) ?_
    exact replaceAll_keeps_tag ('[' :: ref ++ [']']) (tagStr_ragTag i) hq
      (hq2 i) _ _ (Nat.le_refl _) h

theorem netReplaceLoop_keeps_tag {q : Str} (hq : TagStr q)
    (hq2 : ∀ i X, ¬ q <+: netTag i ++ X) (hq4 : ∀ X, ¬ q <+: netClose ++ X) :
    ∀ (refs : List Str) (i : Nat) (text : Str),
      q <:+: text → q <:+: netReplaceLoop i refs text := by
  intro refs
  induction refs with
  | nil => intro i text h; exact h
  | cons ref rest ih =>
    intro i text h
    show q <:+: netReplaceLoop (i + 1) rest
      (replaceAll netClose [] (replaceAll (netTag i) ('[' :: ref ++ [']']) text))
    refine ih (i + 1) _ ?_
    refine replaceAll_keeps_tag [] tagStr_netClose hq hq4 _ _ (Nat.le_refl _) ?_
    exact replaceAll_keeps_tag ('[' :: ref ++ [']']) (tagStr_netTag i) hq
      (hq2 i) _ _ (Nat.le_refl _) h

/-! ## Claim C9: substitution with an empty per-kind list leaves that
kind's tags in place -/

/-- C9: `_replace_reference_tags` strips closing tags only while iterating
a non-empty origin list of the same kind: with an empty RAG list every RAG
tag (opening `<RAG id=i>` and closing `</RAG>`) still occurs in the output,
with an empty InternetSearch list every Internet tag still occurs, and with
both lists empty the text is returned unchanged. -/
theorem replace_tags_empty_kind_keeps_tags (text : Str) (refs : RefMap) (i j : Nat) :
    (refs.RAG = [] → refs.InternetSearch = [] →
      replace_reference_tags text refs = text) ∧
    (refs.RAG = [] → ragTag i <:+: text →
      ragTag i <:+: replace_reference_tags text refs) ∧
    (refs.RAG = [] → ragClose <:+: text →
      ragClose <:+: replace_reference_tags text refs) ∧
    (refs.InternetSearch = [] → netTag j <:+: text →
      netTag j <:+: replace_reference_tags text refs) ∧
    (refs.InternetSearch = [] → netClose <:+: text →
      netClose <:+: replace_reference_tags text refs) := by
  obtain ⟨rag, net⟩ := refs
  refine ⟨?_, ?_, ?_, ?_, ?_⟩
  · rintro rfl rfl
    rfl
  · rintro rfl h
    exact netReplaceLoop_keeps_tag (tagStr_ragTag i)
      (fun k X => ragTag_np_netTag i k X) (fun X => ragTag_np_netClose i X) net 1 text h
  · rintro rfl h
    exact netReplaceLoop_keeps_tag tagStr_ragClose
      (fun k X => ragClose_np_netTag k X) (fun X => ragClose_np_netClose X) net 1 text h
  · rintro rfl h
    show netTag j <:+: netReplaceLoop 1 [] (ragReplaceLoop 1 rag text)
    exact ragReplaceLoop_keeps_tag (tagStr_netTag j)
      (fun k X => netTag_np_ragTag j k X) (fun X => netTag_np_ragClose j X) rag 1 text h
  · rintro rfl h
    show netClose <:+: netReplaceLoop 1 [] (ragReplaceLoop 1 rag text)
    exact ragReplaceLoop_keeps_tag tagStr_netClose
      (fun k X => netClose_np_ragTag k X) (fun X => netClose_np_ragClose X) rag 1 text h

/-- Witness for C9 at a concrete text containing all four tag shapes. -/
theorem replace_tags_empty_kind_keeps_tags_witness :
    replace_reference_tags (str "a<RAG id=1>b</RAG>c<Internet id=1>d</Internet>e") ⟨[], []⟩ =
        str "a<RAG id=1>b</RAG>c<Internet id=1>d</Internet>e" ∧
      ragTag 1 <:+:
        replace_reference_tags (str "a<RAG id=1>b</RAG>c<Internet id=1>d</Internet>e")
          ⟨[], [str "u"]⟩ ∧
      ragClose <:+:
        replace_reference_tags (str "a<RAG id=1>b</RAG>c<Internet id=1>d</Internet>e")
          ⟨[], [str "u"]⟩ ∧
      netTag 1 <:+:
        replace_reference_tags (str "a<RAG id=1>b</RAG>c<Internet id=1>d</Internet>e")
          ⟨[str "s"], []⟩ ∧
      netClose <:+:
        replace_reference_tags (str "a<RAG id=1>b</RAG>c<Internet id=1>d</Internet>e")
          ⟨[str "s"], []⟩ :=
  ⟨(replace_tags_empty_kind_keeps_tags _ ⟨[], []⟩ 1 1).1 rfl rfl,
   (replace_tags_empty_kind_keeps_tags _ ⟨[], [str "u"]⟩ 1 1).2.1 rfl (by decide),
   (replace_tags_empty_kind_keeps_tags _ ⟨[], [str "u"]⟩ 1 1).2.2.1 rfl (by decide),
   (replace_tags_empty_kind_keeps_tags _ ⟨[str "s"], []⟩ 1 1).2.2.2.1 rfl (by decide),
   (replace_tags_empty_kind_keeps_tags _ ⟨[str "s"], []⟩ 1 1).2.2.2.2 rfl (by decide)⟩

theorem getD_mem_of_lt {l : List Str} {n : Nat} (h : n < l.length) : l.getD n [] ∈ l := by
  rw [List.getD_eq_getElem l [] h]
  exact List.getElem_mem h

/-- Where each segment of a well-formed tagged text ends up after
`_replace_reference_tags`: a `'<'`-free plain segment, or an opening tag
whose id is outside the substituted range, or a closing tag of a kind whose
origin list was empty. -/
theorem refSegMap_classified (refs : RefMap)
    (h1 : ∀ ref ∈ refs.RAG, '<' ∉ ref) (h2 : ∀ ref ∈ refs.InternetSearch, '<' ∉ ref)
    (σ : Seg) (hσ : WfSeg σ) :
    (∃ s, refSegMap refs σ = .plain s ∧ '<' ∉ s) ∨
    (∃ k, refSegMap refs σ = .ragOpen k ∧ (k < 1 ∨ 1 + refs.RAG.length ≤ k)) ∨
    (refSegMap refs σ = .ragCloseSeg ∧ refs.RAG = []) ∨
    (∃ k, refSegMap refs σ = .netOpen k ∧ (k < 1 ∨ 1 + refs.InternetSearch.length ≤ k)) ∨
    (refSegMap refs σ = .netCloseSeg ∧ refs.InternetSearch = []) := by
  obtain ⟨rag, net⟩ := refs
  dsimp only
  cases σ with
  | plain s =>
    refine Or.inl ⟨s, ?_, hσ⟩
    show netSegMap 1 net (ragSegMap 1 rag (.plain s)) = _
    rw [ragSegMap_plain rag 1 hσ, netSegMap_plain net 1 hσ]
  | ragOpen k =>
    by_cases hk : 1 ≤ k ∧ k < 1 + rag.length
    · have hmem : rag.getD (k - 1) [] ∈ rag := getD_mem_of_lt (by omega)
      have hlt : '<' ∉ ('[' :: rag.getD (k - 1) [] ++ [']']) := bracket_no_lt (h1 _ hmem)
      refine Or.inl ⟨'[' :: rag.getD (k - 1) [] ++ [']'], ?_, hlt⟩
      show netSegMap 1 net (ragSegMap 1 rag (.ragOpen k)) = _
      rw [ragSegMap_ragOpen_hit rag 1 k hk.1 hk.2 h1, netSegMap_plain net 1 hlt]
    · refine Or.inr (Or.inl ⟨k, ?_, by omega⟩)
      show netSegMap 1 net (ragSegMap 1 rag (.ragOpen k)) = _
      rw [ragSegMap_ragOpen_miss rag 1 k (by omega), netSegMap_ragOpen net 1 k]
  | ragCloseSeg =>
    by_cases hr : rag = []
    · subst hr
      refine Or.inr (Or.inr (Or.inl ⟨?_, rfl⟩))
      show netSegMap 1 net (ragSegMap 1 [] .ragCloseSeg) = _
      exact netSegMap_ragCloseSeg net 1
    · refine Or.inl ⟨[], ?_, by simp⟩
      show netSegMap 1 net (ragSegMap 1 rag .ragCloseSeg) = _
      rw [ragSegMap_ragCloseSeg rag 1 hr, netSegMap_plain net 1 (by simp)]
  | netOpen k =>
    by_cases hk : 1 ≤ k ∧ k < 1 + net.length
    · have hmem : net.getD (k - 1) [] ∈ net := getD_mem_of_lt (by omega)
      have hlt : '<' ∉ ('[' :: net.getD (k - 1) [] ++ [']']) := bracket_no_lt (h2 _ hmem)
      refine Or.inl ⟨'[' :: net.getD (k - 1) [] ++ [']'], ?_, hlt⟩
      show netSegMap 1 net (ragSegMap 1 rag (.netOpen k)) = _
      rw [ragSegMap_netOpen rag 1 k, netSegMap_netOpen_hit net 1 k hk.1 hk.2 h2]
    · refine Or.inr (Or.inr (Or.inr (Or.inl ⟨k, ?_, by omega⟩)))
      show netSegMap 1 net (ragSegMap 1 rag (.netOpen k)) = _
      rw [ragSegMap_netOpen rag 1 k, netSegMap_netOpen_miss net 1 k (by omega)]
  | netCloseSeg =>
    by_cases hn : net = []
    · subst hn
      refine Or.inr (Or.inr (Or.inr (Or.inr ⟨?_, rfl⟩)))
      show netSegMap 1 [] (ragSegMap 1 rag .netCloseSeg) = _
      rw [ragSegMap_netCloseSeg rag 1]
      rfl
    · refine Or.inl ⟨[], ?_, by simp⟩
      show netSegMap 1 net (ragSegMap 1 rag .netCloseSeg) = _
      rw [ragSegMap_netCloseSeg rag 1, netSegMap_netCloseSeg net 1 hn]

/-! ## Claim C3: citation substitution round-trip -/

/-- C3 (refuted as universally stated): citation substitution does not
guarantee the round-trip for *every* answer text and reference map.  With
an origin string that itself contains `</RAG>`, the bracketed second origin
is destroyed by the closing-tag strip (the output is `[]`, not
`[</RAG>]`); and with an adversarial answer text whose junk glues into a
new `</RAG>` during stripping, a `</RAG>` token survives even though the
RAG list has two clean entries. -/
theorem citation_roundtrip_counterexample :
    (replace_reference_tags (str "<RAG id=2>") ⟨[str "a", str "</RAG>"], []⟩ = str "[]") ∧
      ¬ (str "[</RAG>]") <:+:
        replace_reference_tags (str "<RAG id=2>") ⟨[str "a", str "</RAG>"], []⟩ ∧
      (replace_reference_tags (str "<RAG id=2></RA</RA</RAG>G>G>")
          ⟨[str "a", str "b"], []⟩ = str "[b]</RAG>") ∧
      ragClose <:+:
        replace_reference_tags (str "<RAG id=2></RA</RA</RAG>G>G>")
          ⟨[str "a", str "b"], []⟩ := by
  refine ⟨by decide, by decide, by decide, by decide⟩

/-- C3 (amended): the round-trip holds for well-formed tagged answer texts
(`'<'`-free plain segments interleaved with complete citation tags) whose
origin strings contain no `'<'`: if the text contains `<RAG id=2>` and the
RAG origin list has at least two entries, the post-processed answer
contains the bracketed second origin and no remaining `<RAG id=2>` or
`</RAG>` token. -/
theorem citation_roundtrip_amended (L : List Seg) (refs : RefMap)
    (hwf : ∀ σ ∈ L, WfSeg σ) (h1 : ∀ ref ∈ refs.RAG, '<' ∉ ref)
    (h2 : ∀ ref ∈ refs.InternetSearch, '<' ∉ ref)
    (hmem : Seg.ragOpen 2 ∈ L) (hlen : 2 ≤ refs.RAG.length) :
    ('[' :: refs.RAG.getD 1 [] ++ [']']) <:+:
        replace_reference_tags (renderSegs L) refs ∧
      ¬ ragTag 2 <:+: replace_reference_tags (renderSegs L) refs ∧
      ¬ ragClose <:+: replace_reference_tags (renderSegs L) refs := by
  rw [replace_reference_tags_renderSegs refs L hwf h1 h2]
  refine ⟨?_, ?_, ?_⟩
  · have hF : refSegMap refs (.ragOpen 2) =
        .plain ('[' :: refs.RAG.getD 1 [] ++ [']']) := by
      show netSegMap 1 refs.InternetSearch (ragSegMap 1 refs.RAG (.ragOpen 2)) = _
      rw [ragSegMap_ragOpen_hit refs.RAG 1 2 (by omega) (by omega) h1]
      exact netSegMap_plain refs.InternetSearch 1
        (bracket_no_lt (h1 _ (getD_mem_of_lt (by omega))))
    have hmem2 : Seg.plain ('[' :: refs.RAG.getD 1 [] ++ [']']) ∈
        L.map (refSegMap refs) := by
      rw [← hF]
      exact List.mem_map_of_mem _ hmem
    exact infix_of_mem_renderSegs hmem2
  · refine not_infix_renderSegs (tagStr_ragTag 2) _ ?_
    intro σ hσ
    obtain ⟨σ0, h0, rfl⟩ := List.mem_map.mp hσ
    rcases refSegMap_classified refs h1 h2 σ0 (hwf σ0 h0) with
      ⟨s, hs, hlt⟩ | ⟨k, hk, hb⟩ | ⟨hk, hr⟩ | ⟨k, hk, hb⟩ | ⟨hk, hn⟩
    · exact Or.inl ⟨s, hs, hlt⟩
    · rw [hk]
      exact Or.inr ⟨trivial, fun b => ragTag_np_ragTag (by omega : (2 : Nat) ≠ k) b⟩
    · rw [hr] at hlen
      simp at hlen
    · rw [hk]
      exact Or.inr ⟨trivial, fun b => ragTag_np_netTag 2 k b⟩
    · rw [hk]
      exact Or.inr ⟨trivial, fun b => ragTag_np_netClose 2 b⟩
  · refine not_infix_renderSegs tagStr_ragClose _ ?_
    intro σ hσ
    obtain ⟨σ0, h0, rfl⟩ := List.mem_map.mp hσ
    rcases refSegMap_classified refs h1 h2 σ0 (hwf σ0 h0) with
      ⟨s, hs, hlt⟩ | ⟨k, hk, hb⟩ | ⟨hk, hr⟩ | ⟨k, hk, hb⟩ | ⟨hk, hn⟩
    · exact Or.inl ⟨s, hs, hlt⟩
    · rw [hk]
      exact Or.inr ⟨trivial, fun b => ragClose_np_ragTag k b⟩
    · rw [hr] at hlen
      simp at hlen
    · rw [hk]
      exact Or.inr ⟨trivial, fun b => ragClose_np_netTag k b⟩
    · rw [hk]
      exact Or.inr ⟨trivial, fun b => ragClose_np_netClose b⟩

/-- Witness for the amended C3 at a concrete tagged answer. -/
theorem citation_roundtrip_amended_witness :
    ('[' :: (⟨[str "s1", str "s2"], []⟩ : RefMap).RAG.getD 1 [] ++ [']']) <:+:
        replace_reference_tags
          (renderSegs [.plain (str "x"), .ragOpen 2, .plain (str "y"), .ragCloseSeg])
          ⟨[str "s1", str "s2"], []⟩ ∧
      ¬ ragTag 2 <:+:
        replace_reference_tags
          (renderSegs [.plain (str "x"), .ragOpen 2, .plain (str "y"), .ragCloseSeg])
          ⟨[str "s1", str "s2"], []⟩ ∧
      ¬ ragClose <:+:
        replace_reference_tags
          (renderSegs [.plain (str "x"), .ragOpen 2, .plain (str "y"), .ragCloseSeg])
          ⟨[str "s1", str "s2"], []⟩ :=
  citation_roundtrip_amended
    [.plain (str "x"), .ragOpen 2, .plain (str "y"), .ragCloseSeg]
    ⟨[str "s1", str "s2"], []⟩
    (by
      intro σ hσ
      fin_cases hσ
      · exact (by decide : ('<' : Char) ∉ str "x")
      · exact trivial
      · exact (by decide : ('<' : Char) ∉ str "y")
      · exact trivial)
    (by
      intro r hr
      fin_cases hr
      · decide
      · decide)
    (by
      intro r hr
      exact absurd hr (List.not_mem_nil r))
    (by decide)
    (by decide)

/-! ## Claim C4: idempotence of citation substitution -/

/-- C4 (refuted as universally stated): substitution is not idempotent for
every answer text and reference map.  With an origin string that itself
contains a citation tag the second pass rewrites the reinserted tag
(double-bracketing), and with a clean origin list an adversarial text can
glue into a new `</RAG>` that only the second pass strips. -/
theorem idempotence_counterexample :
    (replace_reference_tags
        (replace_reference_tags (str "<RAG id=1>") ⟨[str "<RAG id=1>"], []⟩)
        ⟨[str "<RAG id=1>"], []⟩ ≠
      replace_reference_tags (str "<RAG id=1>") ⟨[str "<RAG id=1>"], []⟩) ∧
      (replace_reference_tags
          (replace_reference_tags (str "</RA</RAG>G>") ⟨[str "a"], []⟩)
          ⟨[str "a"], []⟩ ≠
        replace_reference_tags (str "</RA</RAG>G>") ⟨[str "a"], []⟩) := by
  refine ⟨by decide, by decide⟩

theorem refSegMap_idem (refs : RefMap)
    (h1 : ∀ ref ∈ refs.RAG, '<' ∉ ref) (h2 : ∀ ref ∈ refs.InternetSearch, '<' ∉ ref)
    (σ : Seg) (hσ : WfSeg σ) :
    refSegMap refs (refSegMap refs σ) = refSegMap refs σ := by
  rcases refSegMap_classified refs h1 h2 σ hσ with
    ⟨s, hs, hlt⟩ | ⟨k, hk, hb⟩ | ⟨hk, hr⟩ | ⟨k, hk, hb⟩ | ⟨hk, hn⟩
  · rw [hs]
    show netSegMap 1 refs.InternetSearch (ragSegMap 1 refs.RAG (.plain s)) = _
    rw [ragSegMap_plain refs.RAG 1 hlt, netSegMap_plain refs.InternetSearch 1 hlt]
  · rw [hk]
    show netSegMap 1 refs.InternetSearch (ragSegMap 1 refs.RAG (.ragOpen k)) = _
    rw [ragSegMap_ragOpen_miss refs.RAG 1 k hb, netSegMap_ragOpen refs.InternetSearch 1 k]
  · rw [hk]
    show netSegMap 1 refs.InternetSearch (ragSegMap 1 refs.RAG .ragCloseSeg) = _
    rw [hr]
    exact netSegMap_ragCloseSeg refs.InternetSearch 1
  · rw [hk]
    show netSegMap 1 refs.InternetSearch (ragSegMap 1 refs.RAG (.netOpen k)) = _
    rw [ragSegMap_netOpen refs.RAG 1 k, netSegMap_netOpen_miss refs.InternetSearch 1 k hb]
  · rw [hk]
    show netSegMap 1 refs.InternetSearch (ragSegMap 1 refs.RAG .netCloseSeg) = _
    rw [ragSegMap_netCloseSeg refs.RAG 1, hn]
    rfl

/-- C4 (amended): citation substitution is idempotent on well-formed tagged
answer texts whose origin strings contain no `'<'`: a second application of
`_replace_reference_tags` with the same reference map changes nothing. -/
theorem citation_substitution_idempotent_amended (L : List Seg) (refs : RefMap)
    (hwf : ∀ σ ∈ L, WfSeg σ) (h1 : ∀ ref ∈ refs.RAG, '<' ∉ ref)
    (h2 : ∀ ref ∈ refs.InternetSearch, '<' ∉ ref) :
    replace_reference_tags (replace_reference_tags (renderSegs L) refs) refs =
      replace_reference_tags (renderSegs L) refs := by
  rw [replace_reference_tags_renderSegs refs L hwf h1 h2]
  have hwf' : ∀ σ ∈ L.map (refSegMap refs), WfSeg σ := by
    intro σ hσ
    obtain ⟨σ0, h0, rfl⟩ := List.mem_map.mp hσ
    exact wfSeg_netSegMap refs.InternetSearch 1 _
      (wfSeg_ragSegMap refs.RAG 1 _ (hwf σ0 h0) h1) h2
  rw [replace_reference_tags_renderSegs refs _ hwf' h1 h2]
  rw [List.map_map]
  congr 1
  refine List.map_congr_left ?_
  intro σ0 h0
  exact refSegMap_idem refs h1 h2 σ0 (hwf σ0 h0)

/-- Witness for the amended C4 at a concrete tagged answer. -/
theorem citation_substitution_idempotent_amended_witness :
    replace_reference_tags
        (replace_reference_tags
          (renderSegs [.plain (str "x"), .ragOpen 1, .ragCloseSeg, .netOpen 1, .netCloseSeg])
          ⟨[str "s"], [str "u"]⟩)
        ⟨[str "s"], [str "u"]⟩ =
      replace_reference_tags
        (renderSegs [.plain (str "x"), .ragOpen 1, .ragCloseSeg, .netOpen 1, .netCloseSeg])
        ⟨[str "s"], [str "u"]⟩ :=
  citation_substitution_idempotent_amended
    [.plain (str "x"), .ragOpen 1, .ragCloseSeg, .netOpen 1, .netCloseSeg]
    ⟨[str "s"], [str "u"]⟩
    (by
      intro σ hσ
      fin_cases hσ
      · exact (by decide : ('<' : Char) ∉ str "x")
      · exact trivial
      · exact trivial
      · exact trivial
      · exact trivial)
    (by
      intro r hr
      fin_cases hr
      decide)
    (by
      intro r hr
      fin_cases hr
      decide)

/-! ## Planner-output scanning lemmas (tool-invocation extraction) -/

/-- Every alignment of `p` against a position inside `a` hits a mismatch
before the end of `a` (decidable; used with `decide` for the concrete
delimiter literals). -/
def diesWithin (p a : Str) : Prop :=
  ∀ j < a.length, ∃ n < p.length, j + n < a.length ∧ p.getD n ' ' ≠ a.getD (j + n) ' '

theorem noStart_of_diesWithin {p a : Str} (hd : diesWithin p a) :
    ∀ (X : Str), ∀ j < a.length, ¬ p <+: List.drop j (a ++ X) := by
  intro X j hj hpre
  obtain ⟨n, hn, hjn, hne⟩ := hd j hj
  obtain ⟨t, ht⟩ := hpre
  apply hne
  have h1 : p.getD n ' ' = (List.drop j (a ++ X)).getD n ' ' := by
    rw [← ht, List.getD_append _ _ _ _ hn]
  rw [h1, List.getD_eq_getElem?_getD, List.getElem?_drop,
    List.getElem?_append_left (by omega), ← List.getD_eq_getElem?_getD]

theorem findAllCaptures_skip {openT closeT : Str} :
    ∀ (a : Str) {b : Str}, (∀ (X : Str), ∀ j < a.length, ¬ openT <+: List.drop j (a ++ X)) →
      findAllCaptures openT closeT (a ++ b) = findAllCaptures openT closeT b := by
  intro a
  induction a with
  | nil => intro b _; rfl
  | cons c a' ih =>
    intro b h
    have h0 : ¬ openT <+: (c :: (a' ++ b)) := by
      have := h b 0 (by simp)
      simpa using this
    have hcond : ¬ (openT.isPrefixOf (c :: (a' ++ b)) ∧ openT ≠ []) := by
      intro hc
      exact h0 (List.isPrefixOf_iff_prefix.mp hc.1)
    show findAllCaptures openT closeT (c :: (a' ++ b)) = _
    rw [findAllCaptures_cons_neg closeT hcond]
    exact ih (fun X j hj => by
      have := h X (j + 1) (by simpa using Nat.succ_lt_succ hj)
      simpa [List.drop_succ_cons] using this)

theorem firstMatchIdx_append {pat : Str} :
    ∀ (a : Str) {m : Str}, (∀ j < a.length, ¬ pat <+: List.drop j (a ++ m)) →
      pat <+: m → firstMatchIdx pat (a ++ m) = some a.length := by
  intro a
  induction a with
  | nil =>
    intro m _ hm
    cases m with
    | nil =>
      show (if pat.isPrefixOf [] then some 0 else none) = some 0
      rw [if_pos (List.isPrefixOf_iff_prefix.mpr hm)]
    | cons c t =>
      show (if pat.isPrefixOf (c :: t) then some 0 else (firstMatchIdx pat t).map (· + 1)) =
        some 0
      rw [if_pos (List.isPrefixOf_iff_prefix.mpr hm)]
  | cons c a' ih =>
    intro m h hm
    have h0 : ¬ pat <+: (c :: (a' ++ m)) := by
      have := h 0 (by simp)
      simpa using this
    show (if pat.isPrefixOf (c :: (a' ++ m)) then some 0
        else (firstMatchIdx pat (a' ++ m)).map (· + 1)) = some (a'.length + 1)
    rw [if_neg (fun hc => h0 (List.isPrefixOf_iff_prefix.mp hc))]
    rw [ih (fun j hj => by
      have := h (j + 1) (by simpa using Nat.succ_lt_succ hj)
      simpa [List.drop_succ_cons] using this) hm]
    rfl

/-- Scanning a complete `open ++ q ++ close` block with a `'<'`-free capture
`q` yields exactly `q` and resumes after the block. -/
theorem findAllCaptures_block {openT closeT q : Str} (ho : openT ≠ [])
    (hc : ∃ c', closeT = '<' :: c') (hq : '<' ∉ q) (b : Str) :
    findAllCaptures openT closeT (openT ++ (q ++ (closeT ++ b))) =
      q :: findAllCaptures openT closeT b := by
  cases openT with
  | nil => exact absurd rfl ho
  | cons co ot =>
    have hfi : firstMatchIdx closeT (List.drop (co :: ot).length
        ((co :: ot) ++ (q ++ (closeT ++ b)))) = some q.length := by
      rw [List.drop_left]
      exact firstMatchIdx_append q (no_match_within_plain hq hc)
        (List.prefix_append closeT b)
    rw [List.cons_append]
    rw [findAllCaptures_cons_pos closeT
      (List.isPrefixOf_iff_prefix.mpr (by
        rw [← List.cons_append]
        exact List.prefix_append (co :: ot) (q ++ (closeT ++ b)))) ho
      (by rw [← List.cons_append]; exact hfi)]
    congr 1
    · rw [← List.cons_append, List.drop_left, List.take_left]
    · rw [← List.cons_append]
      have harr : (co :: ot) ++ (q ++ (closeT ++ b)) = (((co :: ot) ++ q) ++ closeT) ++ b := by
        simp [List.append_assoc]
      rw [harr]
      have hlen : (co :: ot).length + q.length + closeT.length =
          (((co :: ot) ++ q) ++ closeT).length := by
        simp [List.length_append]
        omega
      rw [hlen, List.drop_left]

/-- One item of a planner raw output in generator form: free text or one
complete tagged invocation. -/
inductive PlanItem where
  | junk (s : Str)
  | ragInv (q : Str)
  | netInv (q : Str)
deriving DecidableEq

/-- The text of a plan item. -/
def PlanItem.render : PlanItem → Str
  | .junk s => s
  | .ragInv q => str "<RAG><query>" ++ q ++ str "</query></RAG>"
  | .netInv q => str "<InternetSearch><search_query>" ++ q ++ str "</search_query></InternetSearch>"

/-- A planner raw output assembled from items. -/
def renderPlan (items : List PlanItem) : Str := (items.map PlanItem.render).flatten

/-- Well-formed item: free text and queries contain no `'<'`. -/
def WfPlanItem : PlanItem → Prop
  | .junk s => '<' ∉ s
  | .ragInv q => '<' ∉ q
  | .netInv q => '<' ∉ q

/-- The RAG queries of a plan, in order of appearance. -/
def ragQueries : List PlanItem → List Str
  | [] => []
  | .ragInv q :: rest => q :: ragQueries rest
  | _ :: rest => ragQueries rest

/-- The InternetSearch queries of a plan, in order of appearance. -/
def netQueries : List PlanItem → List Str
  | [] => []
  | .netInv q :: rest => q :: netQueries rest
  | _ :: rest => netQueries rest

theorem renderPlan_cons (it : PlanItem) (items : List PlanItem) :
    renderPlan (it :: items) = it.render ++ renderPlan items := by
  simp [renderPlan]

theorem ragPass_renderPlan :
    ∀ (items : List PlanItem), (∀ it ∈ items, WfPlanItem it) →
      findAllCaptures (str "<RAG><query>") (str "</query></RAG>") (renderPlan items) =
        ragQueries items := by
  intro items
  induction items with
  | nil => intro _; rfl
  | cons it rest ih =>
    intro hwf
    have hrest := fun x hx => hwf x (List.mem_cons_of_mem it hx)
    have hhead : WfPlanItem it := hwf it (List.mem_cons_self it rest)
    rw [renderPlan_cons]
    cases it with
    | junk s =>
      show findAllCaptures (str "<RAG><query>") (str "</query></RAG>")
        (s ++ renderPlan rest) = ragQueries (.junk s :: rest)
      rw [findAllCaptures_skip s
        (fun X j hj => no_match_within_plain hhead ⟨str "RAG><query>", by decide⟩ j hj)]
      exact ih hrest
    | ragInv q =>
      have harr : PlanItem.render (.ragInv q) ++ renderPlan rest =
          str "<RAG><query>" ++ (q ++ (str "</query></RAG>" ++ renderPlan rest)) := by
        simp [PlanItem.render, List.append_assoc]
      rw [harr, findAllCaptures_block (by decide) ⟨str "/query></RAG>", by decide⟩ hhead]
      rw [ih hrest]
      rfl
    | netInv q =>
      have harr : PlanItem.render (.netInv q) ++ renderPlan rest =
          str "<InternetSearch><search_query>" ++
            (q ++ (str "</search_query></InternetSearch>" ++ renderPlan rest)) := by
        simp [PlanItem.render, List.append_assoc]
      have d1 : diesWithin (str "<RAG><query>") (str "<InternetSearch><search_query>") := by
        unfold diesWithin; decide
      have d2 : diesWithin (str "<RAG><query>") (str "</search_query></InternetSearch>") := by
        unfold diesWithin; decide
      rw [harr, findAllCaptures_skip _ (noStart_of_diesWithin d1),
        findAllCaptures_skip q
          (fun X j hj => no_match_within_plain hhead ⟨str "RAG><query>", by decide⟩ j hj),
        findAllCaptures_skip _ (noStart_of_diesWithin d2)]
      exact ih hrest

theorem netPass_renderPlan :
    ∀ (items : List PlanItem), (∀ it ∈ items, WfPlanItem it) →
      findAllCaptures (str "<InternetSearch><search_query>")
          (str "</search_query></InternetSearch>") (renderPlan items) =
        netQueries items := by
  intro items
  induction items with
  | nil => intro _; rfl
  | cons it rest ih =>
    intro hwf
    have hrest := fun x hx => hwf x (List.mem_cons_of_mem it hx)
    have hhead : WfPlanItem it := hwf it (List.mem_cons_self it rest)
    rw [renderPlan_cons]
    cases it with
    | junk s =>
      show findAllCaptures (str "<InternetSearch><search_query>")
        (str "</search_query></InternetSearch>") (s ++ renderPlan rest) =
        netQueries (.junk s :: rest)
      rw [findAllCaptures_skip s
        (fun X j hj =>
          no_match_within_plain hhead ⟨str "InternetSearch><search_query>", by decide⟩ j hj)]
      exact ih hrest
    | ragInv q =>
      have harr : PlanItem.render (.ragInv q) ++ renderPlan rest =
          str "<RAG><query>" ++ (q ++ (str "</query></RAG>" ++ renderPlan rest)) := by
        simp [PlanItem.render, List.append_assoc]
      have d1 : diesWithin (str "<InternetSearch><search_query>") (str "<RAG><query>") := by
        unfold diesWithin; decide
      have d2 : diesWithin (str "<InternetSearch><search_query>") (str "</query></RAG>") := by
        unfold diesWithin; decide
      rw [harr, findAllCaptures_skip _ (noStart_of_diesWithin d1),
        findAllCaptures_skip q
          (fun X j hj =>
            no_match_within_plain hhead ⟨str "InternetSearch><search_query>", by decide⟩ j hj),
        findAllCaptures_skip _ (noStart_of_diesWithin d2)]
      exact ih hrest
    | netInv q =>
      have harr : PlanItem.render (.netInv q) ++ renderPlan rest =
          str "<InternetSearch><search_query>" ++
            (q ++ (str "</search_query></InternetSearch>" ++ renderPlan rest)) := by
        simp [PlanItem.render, List.append_assoc]
      rw [harr, findAllCaptures_block (by decide)
        ⟨str "/search_query></InternetSearch>", by decide⟩ hhead]
      rw [ih hrest]
      rfl

/-! ## Claim C5: extraction order of tool invocations -/

/-- C5: for a planner raw output assembled from `'<'`-free free text and
complete tagged invocations, extraction returns first all
`<RAG><query>…</query></RAG>` captures in order of appearance, then all
`<InternetSearch><search_query>…</search_query></InternetSearch>` captures
in order of appearance (two independent passes, never interleaved), each
query whitespace-trimmed. -/
theorem parse_tool_invocations_ordered (items : List PlanItem)
    (hwf : ∀ it ∈ items, WfPlanItem it) :
    parse_tool_invocations (renderPlan items) =
      (ragQueries items).map (fun q => ⟨.RAG, pyStrip q⟩) ++
        (netQueries items).map (fun q => ⟨.InternetSearch, pyStrip q⟩) := by
  unfold parse_tool_invocations
  rw [ragPass_renderPlan items hwf, netPass_renderPlan items hwf]

/-- Witness for C5: a plan interleaving the two kinds is extracted
RAG-first, in order, trimmed. -/
theorem parse_tool_invocations_ordered_witness :
    parse_tool_invocations
        (renderPlan [.netInv (str " w1 "), .junk (str "noise"), .ragInv (str " q1"),
          .netInv (str "w2"), .ragInv (str "q2 ")]) =
      [⟨.RAG, str "q1"⟩, ⟨.RAG, str "q2"⟩,
        ⟨.InternetSearch, str "w1"⟩, ⟨.InternetSearch, str "w2"⟩] := by
  have h := parse_tool_invocations_ordered
    [.netInv (str " w1 "), .junk (str "noise"), .ragInv (str " q1"),
      .netInv (str "w2"), .ragInv (str "q2 ")]
    (by
      intro it hit
      fin_cases hit
      · exact (by decide : ('<' : Char) ∉ str " w1 ")
      · exact (by decide : ('<' : Char) ∉ str "noise")
      · exact (by decide : ('<' : Char) ∉ str " q1")
      · exact (by decide : ('<' : Char) ∉ str "w2")
      · exact (by decide : ('<' : Char) ∉ str "q2 "))
  rw [h]
  decide

theorem findAllCaptures_nil_of_no_open {openT closeT : Str} :
    ∀ {s : Str}, ¬ openT <:+: s → findAllCaptures openT closeT s = [] := by
  intro s
  induction s with
  | nil => intro _; rfl
  | cons c t ih =>
    intro h
    by_cases hm : openT.isPrefixOf (c :: t) ∧ openT ≠ []
    · exact absurd (List.isPrefixOf_iff_prefix.mp hm.1).isInfix h
    · rw [findAllCaptures_cons_neg closeT hm]
      exact ih (fun hi => h (List.infix_cons_iff.mpr (Or.inr hi)))

/-! ## Claim C6: empty plans are failures, never exceptions -/

/-- C6: if the planner's raw output contains zero recognizable tags (no
occurrence of either opening delimiter), extraction returns the empty
invocation list rather than raising (totality); a backend error during
planning is caught and also yields an empty invocation list; and the
coordinator treats an empty invocation list as a planning failure whose
final answer is the error fallback, not a silent empty run. -/
theorem empty_plan_is_failure (r e query : Str)
    (ragExec : Str → Option RAGResult) (webExec : Str → Option WebSearchResult)
    (rwResponse synResponse : Except Str Str) (Q : Str) (t0 t1 : Rat)
    (h1 : ¬ str "<RAG><query>" <:+: r)
    (h2 : ¬ str "<InternetSearch><search_query>" <:+: r) :
    parse_tool_invocations r = [] ∧
      get_tool_invocations (Except.error e) = [] ∧
      (tool_process_query (.ok r) ragExec webExec query).success = false ∧
      (tool_process_query (.ok r) ragExec webExec query).error =
        some (str "No tool invocations generated") ∧
      (orchestrator_process_query rwResponse (.ok r) synResponse ragExec webExec
          Q t0 t1).final_answer =
        create_fallback_answer Q (str "No tool invocations generated") := by
  have hparse : parse_tool_invocations r = [] := by
    unfold parse_tool_invocations
    rw [findAllCaptures_nil_of_no_open h1, findAllCaptures_nil_of_no_open h2]
    rfl
  have htool : ∀ q', tool_process_query (.ok r) ragExec webExec q' =
      create_error_result (str "No tool invocations generated") q' := by
    intro q'
    unfold tool_process_query
    rw [show get_tool_invocations (Except.ok r) = parse_tool_invocations r from rfl, hparse]
    rw [if_pos rfl]
  refine ⟨hparse, rfl, ?_, ?_, ?_⟩
  · rw [htool query]
    rfl
  · rw [htool query]
    rfl
  · simp only [orchestrator_process_query]
    rw [htool _]
    rfl

/-- Witness for C6 at a concrete tagless planner output. -/
theorem empty_plan_is_failure_witness :
    parse_tool_invocations (str "no tags here") = [] ∧
      get_tool_invocations (Except.error (str "boom")) = [] ∧
      (tool_process_query (.ok (str "no tags here")) (fun _ => none) (fun _ => none)
        (str "q")).success = false ∧
      (tool_process_query (.ok (str "no tags here")) (fun _ => none) (fun _ => none)
        (str "q")).error = some (str "No tool invocations generated") ∧
      (orchestrator_process_query (.error (str "boom")) (.ok (str "no tags here"))
          (.error (str "boom")) (fun _ => none) (fun _ => none)
          (str "Q") 0 1).final_answer =
        create_fallback_answer (str "Q") (str "No tool invocations generated") :=
  empty_plan_is_failure (str "no tags here") (str "boom") (str "q")
    (fun _ => none) (fun _ => none) (.error (str "boom")) (.error (str "boom"))
    (str "Q") 0 1 (by decide) (by decide)

/-! ## Strip idempotence and the rewriter line-scan invariant -/

theorem dropWhile_dropWhile (p : Char → Bool) :
    ∀ (l : Str), (l.dropWhile p).dropWhile p = l.dropWhile p := by
  intro l
  induction l with
  | nil => rfl
  | cons c t ih =>
    by_cases h : p c
    · rw [List.dropWhile_cons, if_pos h, ih]
    · rw [List.dropWhile_cons, if_neg h, List.dropWhile_cons, if_neg h]

theorem dropWhile_eq_self_of_front {p : Char → Bool} {T B : Str}
    (hT : T <+: B) (hB : B.dropWhile p = B) : T.dropWhile p = T := by
  cases T with
  | nil => rfl
  | cons c u =>
    obtain ⟨t, ht⟩ := hT
    rw [List.cons_append] at ht
    subst ht
    rw [List.dropWhile_cons] at hB
    by_cases h : p c
    · rw [if_pos h] at hB
      have hle := (List.dropWhile_suffix p (l := u ++ t)).length_le
      rw [hB] at hle
      simp only [List.length_cons, List.length_append] at hle
      omega
    · rw [List.dropWhile_cons, if_neg h]

theorem pyStrip_idem (s : Str) : pyStrip (pyStrip s) = pyStrip s := by
  unfold pyStrip
  have hB : ((s.dropWhile pySpace).dropWhile pySpace) = s.dropWhile pySpace :=
    dropWhile_dropWhile pySpace s
  have hR : (((s.dropWhile pySpace).reverse.dropWhile pySpace).dropWhile pySpace) =
      (s.dropWhile pySpace).reverse.dropWhile pySpace :=
    dropWhile_dropWhile pySpace _
  have hpre : ((s.dropWhile pySpace).reverse.dropWhile pySpace).reverse <+:
      s.dropWhile pySpace := by
    have hsuf : (s.dropWhile pySpace).reverse.dropWhile pySpace <:+
        (s.dropWhile pySpace).reverse := List.dropWhile_suffix pySpace
    have := List.reverse_prefix.mpr hsuf
    simpa using this
  rw [dropWhile_eq_self_of_front hpre hB]
  rw [List.reverse_reverse, hR]

theorem pyStrip_ne_nil_imp {Q : Str} (h : pyStrip Q ≠ []) : Q ≠ [] := by
  intro hq
  subst hq
  exact h rfl

/-- The invariant of the `_parse_response` line loop: the pending rewritten
query is either still the original query, or a non-empty, non-bracket-led,
already-stripped extracted line. -/
def RwInv (Q : Str) (st : RwState) : Prop :=
  st.rewritten = Q ∨
    (st.rewritten ≠ [] ∧ ¬ (str "[").isPrefixOf st.rewritten ∧
      pyStrip st.rewritten = st.rewritten)

theorem rwLine_rewritten (st : RwState) (rawLine : Str) :
    (rwLine st rawLine).rewritten = st.rewritten ∨
      ((rwLine st rawLine).rewritten ≠ [] ∧
        ¬ (str "[").isPrefixOf (rwLine st rawLine).rewritten ∧
        pyStrip (rwLine st rawLine).rewritten = (rwLine st rawLine).rewritten) := by
  unfold rwLine
  by_cases h1 : pyStrip rawLine = []
  · rw [if_pos h1]
    exact Or.inl rfl
  · rw [if_neg h1]
    by_cases h2 : (str "1. Rewritten Query:").isPrefixOf (pyStrip rawLine) ∨
        isSubstr (str "Rewritten Query:") (pyStrip rawLine)
    · rw [if_pos h2]
      by_cases h3 : ':' ∈ pyStrip rawLine
      · rw [if_pos h3]
        by_cases h4 : pyStrip (afterFirstColon (pyStrip rawLine)) ≠ [] ∧
            ¬ (str "[").isPrefixOf (pyStrip (afterFirstColon (pyStrip rawLine)))
        · rw [if_pos h4]
          exact Or.inr ⟨h4.1, h4.2, pyStrip_idem _⟩
        · rw [if_neg h4]
          exact Or.inl rfl
      · rw [if_neg h3]
        exact Or.inl rfl
    · rw [if_neg h2]
      by_cases h5 : (str "2. Improvements Made:").isPrefixOf (pyStrip rawLine) ∨
          isSubstr (str "Improvements Made:") (pyStrip rawLine)
      · rw [if_pos h5]
        exact Or.inl rfl
      · rw [if_neg h5]
        by_cases h6 : st.cur_section = RwSection.querySec
        · rw [if_pos h6]
          by_cases h7 : ¬ (str "[").isPrefixOf (pyStrip rawLine) ∧
              ¬ (str "2.").isPrefixOf (pyStrip rawLine)
          · rw [if_pos h7]
            exact Or.inr ⟨h1, h7.1, pyStrip_idem _⟩
          · rw [if_neg h7]
            exact Or.inl rfl
        · rw [if_neg h6]
          by_cases h8 : st.cur_section = RwSection.improvementsSec
          · rw [if_pos h8]
            by_cases h9 : (str "-").isPrefixOf (pyStrip rawLine) ∨
                (str "â€¢").isPrefixOf (pyStrip rawLine) ∨
                (str "*").isPrefixOf (pyStrip rawLine)
            · rw [if_pos h9]
              exact Or.inl rfl
            · rw [if_neg h9]
              by_cases h10 : ¬ (str "[").isPrefixOf (pyStrip rawLine)
              · rw [if_pos h10]
                exact Or.inl rfl
              · rw [if_neg h10]
                exact Or.inl rfl
          · rw [if_neg h8]
            exact Or.inl rfl

theorem rwInv_foldl (Q : Str) :
    ∀ (lines : List Str) (st : RwState), RwInv Q st → RwInv Q (lines.foldl rwLine st) := by
  intro lines
  induction lines with
  | nil => intro st h; exact h
  | cons line rest ih =>
    intro st h
    refine ih (rwLine st line) ?_
    rcases rwLine_rewritten st line with heq | hgood
    · rcases h with h | h
      · exact Or.inl (heq.trans h)
      · exact Or.inr ⟨heq ▸ h.1, heq ▸ h.2.1, heq ▸ h.2.2⟩
    · exact Or.inr hgood

theorem not_suffix_singleton_append {c : Char} {x l : Str} (hl : l ≠ [])
    (hlast : l.getLast hl ≠ c) : ¬ [c] <:+ (x ++ l) := by
  intro h
  obtain ⟨u, hu⟩ := h
  apply hlast
  have h1 : (u ++ [c]).getLast? = some c := List.getLast?_concat u
  rw [hu, List.getLast?_append_of_ne_nil x hl, List.getLast?_eq_getLast l hl] at h1
  exact Option.some.inj h1

theorem pyStrip_eq_self_of_bracketed {Q : Str} (h1 : (str "[").isPrefixOf Q)
    (h2 : (str "]").isSuffixOf Q) : pyStrip Q = Q := by
  obtain ⟨t, ht⟩ := List.isPrefixOf_iff_prefix.mp h1
  obtain ⟨u, hu⟩ := List.isSuffixOf_iff_suffix.mp h2
  have hfront : Q.dropWhile pySpace = Q := by
    rw [← ht]
    show List.dropWhile pySpace ('[' :: t) = '[' :: t
    rw [List.dropWhile_cons, if_neg (by decide)]
  have hback : Q.reverse.dropWhile pySpace = Q.reverse := by
    rw [← hu, List.reverse_append]
    show List.dropWhile pySpace (']' :: u.reverse) = ']' :: u.reverse
    rw [List.dropWhile_cons, if_neg (by decide)]
  unfold pyStrip
  rw [hfront, hback, List.reverse_reverse]

/-! ## Claim C7: rewritten-query invariants -/

/-- C7 (refuted as universally stated): the rewriter's result can be empty
(empty original query with an unparseable model output), can be exactly a
bracketed placeholder (a bracketed original query is handed back verbatim,
both on the parsing path and on the backend-failure path). -/
theorem rewriter_invariants_counterexample :
    (rewrite_query (.ok (str "")) (str "")).rewritten_query = [] ∧
      (rewrite_query (.ok (str "no headers")) (str "[x]")).rewritten_query = str "[x]" ∧
      (rewrite_query (.error (str "err")) (str "[islam]")).rewritten_query =
        str "[islam]" := by
  refine ⟨by decide, by decide, by decide⟩

/-- C7 (amended): for every original query Q and every backend outcome:
if the stripped original is non-empty the rewritten query is non-empty; if
the stripped original is not itself a bracketed placeholder the rewritten
query is not a bracketed placeholder; and on the parsing path, if the line
scan extracted nothing (the pending rewritten query is still Q), the
rewritten query equals the original up to whitespace stripping (exactly Q
when the stripped original is bracketed). -/
theorem rewriter_invariants_amended (b : Except Str Str) (Q : Str) :
    (pyStrip Q ≠ [] → (rewrite_query b Q).rewritten_query ≠ []) ∧
      (¬ ((str "[").isPrefixOf (pyStrip Q) ∧ (str "]").isSuffixOf (pyStrip Q)) →
        ¬ ((str "[").isPrefixOf (rewrite_query b Q).rewritten_query ∧
          (str "]").isSuffixOf (rewrite_query b Q).rewritten_query)) ∧
      (∀ response, b = Except.ok response →
        (parse_response_scan response Q).rewritten = Q →
        (rewrite_query b Q).rewritten_query =
          if (str "[").isPrefixOf (pyStrip Q) ∧ (str "]").isSuffixOf (pyStrip Q)
          then Q else pyStrip Q) := by
  cases b with
  | error e =>
    refine ⟨?_, ?_, ?_⟩
    · intro hQ
      show simple_enhance_query Q ≠ []
      simp only [simple_enhance_query]
      split
      · exact pyStrip_ne_nil_imp hQ
      · intro hc
        have := congrArg List.length hc
        simp [str] at this
    · intro hQ
      show ¬ ((str "[").isPrefixOf (simple_enhance_query Q) ∧
          (str "]").isSuffixOf (simple_enhance_query Q))
      simp only [simple_enhance_query]
      split
      · intro hres
        apply hQ
        rw [pyStrip_eq_self_of_bracketed hres.1 hres.2]
        exact hres
      · intro hres
        have hl : str " in Islamic perspective according to Quran and Sunnah" ≠ [] := by
          decide
        have h1 : (str " in Islamic perspective according to Quran and Sunnah").getLast? =
            some 'h' := by decide
        have hlast :
            (str " in Islamic perspective according to Quran and Sunnah").getLast hl ≠ ']' := by
          intro hc
          rw [List.getLast?_eq_getLast _ hl, hc] at h1
          exact absurd (Option.some.inj h1) (by decide)
        exact absurd (List.isSuffixOf_iff_suffix.mp hres.2)
          (not_suffix_singleton_append hl hlast)
    · intro response hb
      exact absurd hb (by simp)
  | ok response =>
    have hInv : RwInv Q (parse_response_scan response Q) :=
      rwInv_foldl Q (splitOnNl (pyStrip response)) ⟨Q, [], .noSection⟩ (Or.inl rfl)
    refine ⟨?_, ?_, ?_⟩
    · intro hQ
      show (parse_response response Q).1 ≠ []
      simp only [parse_response]
      rcases hInv with hst | ⟨hne, hnb, hstr⟩
      · rw [hst]
        split
        · exact pyStrip_ne_nil_imp hQ
        · exact hQ
      · rw [hstr]
        rw [if_neg (fun hc => hnb hc.1)]
        exact hne
    · intro hQ
      show ¬ ((str "[").isPrefixOf (parse_response response Q).1 ∧
          (str "]").isSuffixOf (parse_response response Q).1)
      simp only [parse_response]
      rcases hInv with hst | ⟨hne, hnb, hstr⟩
      · rw [hst]
        rw [if_neg hQ]
        exact hQ
      · rw [hstr]
        rw [if_neg (fun hc => hnb hc.1)]
        exact fun hc => hnb hc.1
    · intro response2 hb hscan
      have hresp : response2 = response := by
        injection hb with hb'
        exact hb'.symm
      rw [hresp] at hscan
      show (parse_response response Q).1 = _
      simp only [parse_response]
      rw [hscan]

/-- Witness for the amended C7 at concrete inputs. -/
theorem rewriter_invariants_amended_witness :
    (rewrite_query (.ok (str "1. Rewritten Query: better question"))
        (str "What breaks a fast?")).rewritten_query ≠ [] ∧
      ¬ ((str "[").isPrefixOf
          (rewrite_query (.ok (str "1. Rewritten Query: better question"))
            (str "What breaks a fast?")).rewritten_query ∧
        (str "]").isSuffixOf
          (rewrite_query (.ok (str "1. Rewritten Query: better question"))
            (str "What breaks a fast?")).rewritten_query) ∧
      (rewrite_query (.ok (str "junk")) (str " padded ")).rewritten_query =
        (if (str "[").isPrefixOf (pyStrip (str " padded ")) ∧
            (str "]").isSuffixOf (pyStrip (str " padded "))
          then str " padded " else pyStrip (str " padded ")) :=
  ⟨(rewriter_invariants_amended (.ok (str "1. Rewritten Query: better question"))
      (str "What breaks a fast?")).1 (by decide),
   (rewriter_invariants_amended (.ok (str "1. Rewritten Query: better question"))
      (str "What breaks a fast?")).2.1 (by decide),
   (rewriter_invariants_amended (.ok (str "junk")) (str " padded ")).2.2
      (str "junk") rfl (by decide)⟩
